import Mathlib

/-!
# env-injector: injection of parameter-store values into the process environment

A shallow embedding of `ssm.go` (functions `injectEnvironByPath` and
`injectEnvironByPrefix`) together with the pieces of the Go standard library they
call (`os.Getenv`, `os.Setenv`, `os.Environ`, `filepath.Clean`, `filepath.Rel`,
`strings.SplitN`, `strings.HasSuffix`, `strings.TrimPrefix`, `aws.StringValue`),
followed by the properties of the two injectors.

Go strings are byte strings; they are embedded as lists of characters.
The remote store is an external collaborator: its answers are inputs of the
embedding, and the requests sent to it are recorded in the result of a run.
The path injector is first embedded with a relativization function as a parameter,
and then with filepath.Rel in its place.
-/

namespace EnvInjector

/-- A Go string, as the list of its characters. The library functions below only
look for the ASCII characters `/`, `.`, `=` and NUL, each a single byte of the
string. -/
abbrev Str := List Char

deriving instance DecidableEq for Except

/-- The NUL byte. -/
def NUL : Char := Char.ofNat 0

/-! ## Go standard library -/

/-- The helper aws.StringValue: the pointed-to string, or the empty string for a nil pointer. -/
def StringValue : Option Str → Str
  | none => []
  | some s => s

/-- The function strings.HasSuffix for a one-byte suffix. -/
def HasSuffix (s : Str) (suffix : Char) : Bool :=
  s.getLast? == some suffix

/-- The function strings.TrimPrefix: `s` without the leading `pre` when `s` starts
with it, and `s` itself otherwise. -/
def TrimPrefix (s pre : Str) : Str :=
  if pre.isPrefixOf s then s.drop pre.length else s

/-- The text before and after the first separator, if there is one. -/
def cutAt (sep : Char) : Str → Option (Str × Str)
  | [] => none
  | c :: rest =>
    if c = sep then some ([], rest)
    else
      match cutAt sep rest with
      | some (a, b) => some (c :: a, b)
      | none => none

/-- The pieces of strings.SplitN for a count `n ≥ 0` and a one-byte separator. -/
def splitPieces (sep : Char) : Nat → Str → List Str
  | 0, _ => []
  | 1, s => [s]
  | n + 2, s =>
    match cutAt sep s with
    | some (a, b) => a :: splitPieces sep (n + 1) b
    | none => [s]

/-- The function strings.SplitN(s, sep, n) for a one-byte separator and `n ≥ 0`: at
most `n` pieces, the last one being the unsplit remainder. -/
def SplitN (s : Str) (sep : Char) (n : Nat) : List Str :=
  splitPieces sep n s

/-- The backtracking step of filepath.Clean at a `..` element, on the reversed output
buffer: `out.w--` once, then again while `out.w > dotdot` and the byte just dropped
is not a separator. -/
def cleanBacktrack (dotdot : Nat) : List Char → List Char
  | [] => []
  | c :: rest =>
    if dotdot < rest.length ∧ c ≠ '/' then cleanBacktrack dotdot rest else rest

/-- The main loop of filepath.Clean (Unix). `path` is the unread input `path[r:]`,
`out` the output buffer in reverse, `dotdot` the index where `..` must stop.
Every iteration reads at least one byte, so `fuel = len(path)` suffices. -/
def cleanLoop (rooted : Bool) : Nat → List Char → List Char → Nat → List Char
  | 0, _, out, _ => out
  | _ + 1, [], out, _ => out
  | fuel + 1, c :: rest, out, dotdot =>
    if c = '/' then
      -- empty path element
      cleanLoop rooted fuel rest out dotdot
    else if c = '.' ∧ (rest = [] ∨ rest.head? = some '/') then
      -- . element
      cleanLoop rooted fuel rest out dotdot
    else if c = '.' ∧ rest.head? = some '.' ∧
        (rest.tail = [] ∨ rest.tail.head? = some '/') then
      -- .. element: remove to last separator
      if dotdot < out.length then
        cleanLoop rooted fuel rest.tail (cleanBacktrack dotdot out) dotdot
      else if !rooted then
        let out1 := if 0 < out.length then '/' :: out else out
        let out2 := '.' :: '.' :: out1
        cleanLoop rooted fuel rest.tail out2 out2.length
      else
        cleanLoop rooted fuel rest.tail out dotdot
    else
      -- real path element: add slash if needed, copy element
      let out1 :=
        if (rooted ∧ out.length ≠ 1) ∨ (!rooted ∧ out.length ≠ 0) then '/' :: out else out
      let elem := (c :: rest).takeWhile (fun x => x ≠ '/')
      cleanLoop rooted fuel ((c :: rest).dropWhile (fun x => x ≠ '/')) (elem.reverse ++ out1) dotdot

/-- The function filepath.Clean on Unix (no volume names, separator `/`). -/
def Clean (path : Str) : Str :=
  if path = [] then ['.']
  else
    let rooted := path.head? == some '/'
    let out :=
      if rooted then cleanLoop rooted path.length path.tail ['/'] 1
      else cleanLoop rooted path.length path [] 0
    if out.length = 0 then ['.'] else out.reverse

/-- The indices `(b0, bi, t0, ti)` of the element-matching loop of filepath.Rel. -/
structure RelPos where
  b0 : Nat
  bi : Nat
  t0 : Nat
  ti : Nat
deriving DecidableEq, Repr

/-- Advance an index to the next separator: `for i < len(s) && s[i] != '/' { i++ }`. -/
def skipElem (s : Str) (i : Nat) : Nat :=
  i + ((s.drop i).takeWhile (fun x => x ≠ '/')).length

/-- The substring `s[i:j]`. -/
def slice (s : Str) (i j : Nat) : Str :=
  (s.take j).drop i

/-- The loop of filepath.Rel that positions `base[b0:bi]` and `targ[t0:ti]` at the
first differing elements. It compares the paths element by element and goes on
while either path has elements left: when the target is used up first, the next
element of the base is the differing one. Every iteration that does not leave the
loop moves `bi` or `ti` forward, so `fuel = len(base) + len(targ) + 1` suffices. -/
def relLoop (base targ : Str) : Nat → RelPos → RelPos
  | 0, p => p
  | fuel + 1, p =>
    if p.bi < base.length ∨ p.ti < targ.length then
      let bi := skipElem base p.bi
      let ti := skipElem targ p.ti
      if slice targ p.t0 ti ≠ slice base p.b0 bi then
        { p with bi := bi, ti := ti }
      else
        let bi1 := if bi < base.length then bi + 1 else bi
        let ti1 := if ti < targ.length then ti + 1 else ti
        relLoop base targ fuel { b0 := bi1, bi := bi1, t0 := ti1, ti := ti1 }
    else p

/-- The `seps` copies of `/..` that filepath.Rel appends after the first `..`. -/
def upDirs : Nat → Str
  | 0 => []
  | n + 1 => '/' :: '.' :: '.' :: upDirs n

/-- The function filepath.Rel on Unix: a path that, joined to `basepath`, is
equivalent to `targpath`; an error when that needs to know the current directory.
The result for a target that cleans to `.` is that of the Go releases up to 1.25
(`../.` for the base `a`); later releases drop the final `/.`. The properties below
that speak of the key of a parameter are stated for every relativization function,
and the ones about this function only use whether it reports an error. -/
def Rel (basepath targpath : Str) : Except Str Str :=
  let base := Clean basepath
  let targ := Clean targpath
  if targ = base then .ok ['.']
  else
    let base := if base = ['.'] then [] else base
    let baseSlashed := decide (0 < base.length) && (base.head? == some '/')
    let targSlashed := decide (0 < targ.length) && (targ.head? == some '/')
    if baseSlashed ≠ targSlashed then
      .error ("Rel: can't make ".toList ++ targpath ++ " relative to ".toList ++ basepath)
    else
      let bl := base.length
      let tl := targ.length
      let p := relLoop base targ (bl + tl + 1) { b0 := 0, bi := 0, t0 := 0, ti := 0 }
      if slice base p.b0 p.bi = ['.', '.'] then
        .error ("Rel: can't make ".toList ++ targpath ++ " relative to ".toList ++ basepath)
      else if p.b0 ≠ bl then
        -- Base elements left. Must go up before going down.
        let seps := (slice base p.b0 bl).count '/'
        let up := ['.', '.'] ++ upDirs seps
        if p.t0 ≠ tl then .ok (up ++ '/' :: targ.drop p.t0) else .ok up
      else
        .ok (targ.drop p.t0)

/-! ## The process environment -/

/-- The process environment: the variables in the order os.Environ lists them, each
as its name and its value (the text before and after the first `=` of the entry). -/
abbrev Environment := List (Str × Str)

/-- The bindings an operating-system environment consists of, as Go keeps them: no
name holds a `=` (the name ends at the first one) and no name is bound twice (Go
blanks later duplicates when it first reads the environment). -/
def wellFormed (env : Environment) : Prop :=
  (∀ kv ∈ env, '=' ∉ kv.1) ∧ (env.map Prod.fst).Nodup

instance (env : Environment) : Decidable (wellFormed env) := by
  unfold wellFormed; infer_instance

/-- The binding of `key`, if any (the first one). -/
def lookupEnv (key : Str) : Environment → Option Str
  | [] => none
  | (k, v) :: rest => if k = key then some v else lookupEnv key rest

/-- The function os.Getenv: the value of the variable, empty when the variable is
unset; the empty name is never found. -/
def Getenv (env : Environment) (key : Str) : Str :=
  if key = [] then []
  else
    match lookupEnv key env with
    | some v => v
    | none => []

/-- Rebind `key` where it is bound (`envs[i] = kv`), or append the binding. -/
def setBinding (key value : Str) : Environment → Environment
  | [] => [(key, value)]
  | (k, v) :: rest =>
    if k = key then (k, value) :: rest else (k, v) :: setBinding key value rest

/-- The names os.Setenv accepts: non-empty, without `=` and without NUL. -/
def validKey (key : Str) : Bool :=
  !key.isEmpty && key.all (fun c => c != '=' && c != NUL)

/-- The values os.Setenv accepts: without NUL. -/
def validValue (value : Str) : Bool :=
  value.all (fun c => c != NUL)

/-- The function os.Setenv (syscall.Setenv on Unix): EINVAL, with the environment
untouched, for an empty name, a name holding `=` or NUL, or a value holding NUL;
otherwise the variable is bound to the value. -/
def Setenv (env : Environment) (key value : Str) : Except Str Environment :=
  if validKey key && validValue value then .ok (setBinding key value env)
  else .error "setenv: invalid argument".toList

/-- A call `os.Setenv(key, value)` whose error result is discarded, as both
injectors do. -/
def setenvIgnoringError (env : Environment) (key value : Str) : Environment :=
  match Setenv env key value with
  | .ok env1 => env1
  | .error _ => env

/-- The function os.Environ: the entries `name=value`, in order. -/
def Environ (env : Environment) : List Str :=
  env.map (fun kv => kv.1 ++ '=' :: kv.2)

/-! ## The remote store -/

/-- A parameter as the store returns it (type ssm.Parameter): name and value are
pointers, nil being possible. -/
structure Parameter where
  Name : Option Str
  Value : Option Str
deriving DecidableEq, Repr

/-- The request ssm.GetParametersByPathInput, with the fields the code fills. -/
structure GetParametersByPathInput where
  Path : Str
  WithDecryption : Bool
  NextToken : Option Str
deriving DecidableEq, Repr

/-- The answer ssm.GetParametersByPathOutput. -/
structure GetParametersByPathOutput where
  Parameters : List Parameter
  NextToken : Option Str
deriving DecidableEq, Repr

/-- The request ssm.GetParametersInput, with the fields the code fills. -/
structure GetParametersInput where
  Names : List Str
  WithDecryption : Bool
deriving DecidableEq, Repr

/-- The answer ssm.GetParametersOutput. -/
structure GetParametersOutput where
  Parameters : List Parameter
  InvalidParameters : List (Option Str)
deriving DecidableEq, Repr

/-- What the store does with one request: an error, or an answer. -/
abbrev Answer (α : Type) := Except Str α

/-! ## Path Injector: `injectEnvironByPath` -/

/-- How a run of `injectEnvironByPath` ends. `returned`: the function returns.
`fatal`: `log.Fatalf` ends the process. `awaiting`: the list of answers given to the
embedding is used up while the loop is about to send one more request. -/
inductive PathStatus where
  | returned
  | fatal
  | awaiting
deriving DecidableEq, Repr

/-- The result of a run of `injectEnvironByPath`: the environment it leaves, the
requests it sent to the store, in order, and how it ended. -/
structure PathRun where
  env : Environment
  requests : List GetParametersByPathInput
  status : PathStatus
deriving DecidableEq, Repr

/-- A relativization function, in the place of filepath.Rel. -/
abbrev Relativize := Str → Str → Except Str Str

/-- The body of `for _, param := range result.Parameters` (ssm.go lines 70-80), with
`rel` in the place of filepath.Rel. -/
def injectParamWith (rel : Relativize) (path : Str) (env : Environment)
    (param : Parameter) : Environment :=
  match rel path (StringValue param.Name) with
  | .error _ => env
  | .ok key =>
    if Getenv env key = [] then setenvIgnoringError env key (StringValue param.Value)
    else env

/-- The pagination loop (ssm.go lines 60-85), with `rel` in the place of
filepath.Rel. `answers` are the answers of the store to the successive requests;
`nextToken`, `env` and `sent` are the state at the head of the loop. -/
def pathLoopWith (rel : Relativize) (path : Str) :
    List (Answer GetParametersByPathOutput) → Option Str → Environment →
      List GetParametersByPathInput → PathRun
  | [], _, env, sent => { env := env, requests := sent, status := .awaiting }
  | answer :: rest, nextToken, env, sent =>
    let sent1 := sent ++ [{ Path := path, WithDecryption := true, NextToken := nextToken }]
    match answer with
    | .error _ => { env := env, requests := sent1, status := .fatal }
    | .ok result =>
      let env1 := result.Parameters.foldl (injectParamWith rel path) env
      if result.NextToken = none ∨ StringValue result.NextToken = [] then
        { env := env1, requests := sent1, status := .returned }
      else pathLoopWith rel path rest result.NextToken env1 sent1

/-- The body of `for _, param := range result.Parameters` (ssm.go lines 70-80). -/
def injectParam (path : Str) (env : Environment) (param : Parameter) : Environment :=
  injectParamWith Rel path env param

/-- The pagination loop (ssm.go lines 60-85). -/
def pathLoop (path : Str) (answers : List (Answer GetParametersByPathOutput))
    (nextToken : Option Str) (env : Environment) (sent : List GetParametersByPathInput) :
    PathRun :=
  pathLoopWith Rel path answers nextToken env sent

/-- The name of the variable holding the path. -/
def ENV_INJECTOR_PATH : Str := "ENV_INJECTOR_PATH".toList

/-- The function `injectEnvironByPath` (ssm.go lines 49-86) with `rel` in the place
of filepath.Rel, run in environment `env` against a store that gives `answers` to
the successive requests. The service handle of `getSSMService` is taken as obtained;
the trace output is not part of the result. -/
def injectEnvironByPathWith (rel : Relativize) (env : Environment)
    (answers : List (Answer GetParametersByPathOutput)) : PathRun :=
  let path := Getenv env ENV_INJECTOR_PATH
  if path = [] then { env := env, requests := [], status := .returned }
  else pathLoopWith rel path answers none env []

/-- The function `injectEnvironByPath` (ssm.go lines 49-86), run in environment `env`
against a store that gives `answers` to the successive requests. -/
def injectEnvironByPath (env : Environment)
    (answers : List (Answer GetParametersByPathOutput)) : PathRun :=
  injectEnvironByPathWith Rel env answers

/-! ## Prefix Injector: `injectEnvironByPrefix` -/

/-- The result of a run of `injectEnvironByPrefix`: the environment it leaves and the
requests it sent to the store, in order. -/
structure PrefixRun where
  env : Environment
  requests : List GetParametersInput
deriving DecidableEq, Repr

/-- The collection of the names to fetch (ssm.go lines 100-106). The pointers that
aws.String makes are never nil, so the names are kept as strings. -/
def collectNames (pre : Str) (environ : List Str) : List Str :=
  environ.foldl
    (fun names e =>
      let parts := SplitN e '=' 2
      if parts.length = 2 ∧ parts.getD 1 [] = [] then names ++ [pre ++ parts.getD 0 []]
      else names)
    []

/-- The body of `for _, param := range result.Parameters` (ssm.go lines 130-134). -/
def injectFetched (pre : Str) (env : Environment) (param : Parameter) : Environment :=
  setenvIgnoringError env (TrimPrefix (StringValue param.Name) pre) (StringValue param.Value)

/-- The body of `for _, n := range names` (ssm.go lines 116-135). -/
def injectName (pre : Str) (svc : GetParametersInput → Answer GetParametersOutput)
    (run : PrefixRun) (n : Str) : PrefixRun :=
  let request : GetParametersInput := { Names := [n], WithDecryption := true }
  match svc request with
  | .error _ => { env := run.env, requests := run.requests ++ [request] }
  | .ok result =>
    { env := result.Parameters.foldl (injectFetched pre) run.env,
      requests := run.requests ++ [request] }

/-- The loop `for _, n := range names` (ssm.go lines 116-135). -/
def injectNames (pre : Str) (svc : GetParametersInput → Answer GetParametersOutput)
    (env : Environment) (names : List Str) : PrefixRun :=
  names.foldl (injectName pre svc) { env := env, requests := [] }

/-- The name of the variable holding the prefix. -/
def ENV_INJECTOR_PREFIX : Str := "ENV_INJECTOR_PREFIX".toList

/-- The prefix with a final `.` (ssm.go lines 96-98). -/
def normalizePrefix (pre : Str) : Str :=
  if !HasSuffix pre '.' then pre ++ ['.'] else pre

/-- The function `injectEnvironByPrefix` (ssm.go lines 88-136), run in environment
`env` against a store that answers a request with `svc`. The service handle of
`getSSMService` is taken as obtained; the trace output is not part of the result. -/
def injectEnvironByPrefix (env : Environment)
    (svc : GetParametersInput → Answer GetParametersOutput) : PrefixRun :=
  let pre := Getenv env ENV_INJECTOR_PREFIX
  if pre = [] then { env := env, requests := [] }
  else
    let pre1 := normalizePrefix pre
    let names := collectNames pre1 (Environ env)
    if names.length = 0 then { env := env, requests := [] }
    else injectNames pre1 svc env names

/-! ## Notions used to state the properties -/

/-- The parameters of a sequence of pages, in page order and then in-page order. -/
def allParameters : List GetParametersByPathOutput → List Parameter
  | [] => []
  | page :: rest => page.Parameters ++ allParameters rest

/-- The request `injectEnvironByPath` sends for a continuation token. -/
def pathRequest (path : Str) (token : Option Str) : GetParametersByPathInput :=
  { Path := path, WithDecryption := true, NextToken := token }

/-- The request `injectEnvironByPrefix` sends for one name. -/
def nameRequest (n : Str) : GetParametersInput :=
  { Names := [n], WithDecryption := true }

/-- The token in hand after the given pages, starting from `token`. -/
def lastToken (token : Option Str) : List GetParametersByPathOutput → Option Str
  | [] => token
  | page :: rest => lastToken page.NextToken rest

/-- The tokens of the requests that fetch the given pages, starting from `token`. -/
def sentTokens (token : Option Str) : List GetParametersByPathOutput → List (Option Str)
  | [] => []
  | page :: rest => token :: sentTokens page.NextToken rest

/-- A parameter that gives `K` a non-empty value when it is processed with `K` unset
or empty: its name relativizes to `K`, its value is non-empty, and os.Setenv accepts
the name `K` and the value. -/
def settles (rel : Relativize) (path K : Str) (param : Parameter) : Bool :=
  decide (rel path (StringValue param.Name) = .ok K) &&
    (decide (StringValue param.Value ≠ []) &&
      (validKey K && validValue (StringValue param.Value)))

/-- The variables bound to the empty string, in environment order. -/
def pendingNames (env : Environment) : List Str :=
  (env.filter (fun kv => kv.2 = [])).map Prod.fst

/-- The environment after one turn of the loop over the names. -/
def fetchInto (pre : Str) (svc : GetParametersInput → Answer GetParametersOutput)
    (env : Environment) (n : Str) : Environment :=
  match svc (nameRequest n) with
  | .error _ => env
  | .ok result => result.Parameters.foldl (injectFetched pre) env

/-- A store that returns, for a request, only parameters that carry a requested name. -/
def answersRequestedNames (svc : GetParametersInput → Answer GetParametersOutput) : Prop :=
  ∀ request result, svc request = .ok result →
    ∀ param ∈ result.Parameters, StringValue param.Name ∈ request.Names

/-! ## Notions used to reason about filepath.Clean and filepath.Rel -/

/-- An element that filepath.Clean keeps in a path that begins with the separator:
non-empty, without separator, and not `..`. -/
def cleanElem (e : Str) : Prop :=
  e ≠ [] ∧ '/' ∉ e ∧ e ≠ ['.', '.']

/-- The output buffer of filepath.Clean, in reverse, when it holds the elements `es`
(latest first), each one behind a separator. -/
def elemsBuffer : List Str → List Char
  | [] => []
  | e :: es => e.reverse ++ '/' :: elemsBuffer es

/-- The output buffer of filepath.Clean, in reverse, for a path that begins with the
separator and of which the elements `es` (latest first) are kept so far. -/
def rootedBuffer (es : List Str) : List Char :=
  match es with
  | [] => ['/']
  | e :: rest => elemsBuffer (e :: rest)

/-- A path none of whose elements is `..`: wherever an element starts (at the head of
the path or behind a separator), the text up to the next separator is not `..`. -/
def noDotDot (base : Str) : Prop :=
  ∀ X b, base = X ++ b → (X = [] ∨ X.getLast? = some '/') →
    b.takeWhile (fun x => x ≠ '/') ≠ ['.', '.']

/-- The state of the loop of filepath.Rel at the head of an iteration: `bi = b0`, and
`b0` is the start of an element of the base or lies behind its end. -/
def atElemStart (base : Str) (p : RelPos) : Prop :=
  p.bi = p.b0 ∧
    ((base.take p.b0 = [] ∨ (base.take p.b0).getLast? = some '/') ∨ base.length ≤ p.b0)

/-! ## The scenarios of the specification -/

/-- The environment of the path scenario. -/
def scenarioPathEnv : Environment :=
  [(ENV_INJECTOR_PATH, "/app/prod".toList), ("DB_PORT".toList, "already-set".toList)]

/-- The two pages of the path scenario. -/
def scenarioPathAnswers : List (Answer GetParametersByPathOutput) :=
  [ .ok { Parameters := [{ Name := some "/app/prod/DB_HOST".toList, Value := some "host1".toList }],
          NextToken := some "t1".toList },
    .ok { Parameters := [{ Name := some "/app/prod/DB_PORT".toList, Value := some "5432".toList }],
          NextToken := none } ]

/-- The environment of the prefix scenario. -/
def scenarioPrefixEnv : Environment :=
  [(ENV_INJECTOR_PREFIX, "secrets".toList), ("API_KEY".toList, [])]

/-- The store of the prefix scenario: it holds `secrets.API_KEY = xyz` only. -/
def scenarioPrefixStore : GetParametersInput → Answer GetParametersOutput :=
  fun request =>
    if request.Names = ["secrets.API_KEY".toList] then
      .ok { Parameters := [{ Name := some "secrets.API_KEY".toList, Value := some "xyz".toList }],
            InvalidParameters := [] }
    else .ok { Parameters := [], InvalidParameters := request.Names.map some }

/-! ## Further inputs -/

/-- A first page that lists the parameter `/app/prod/A` with the value `1`. -/
def repeatedKeyPage1 : GetParametersByPathOutput :=
  { Parameters := [{ Name := some "/app/prod/A".toList, Value := some "1".toList }],
    NextToken := some "t1".toList }

/-- A last page that lists the parameter `/app/prod/A` again, with the value `2`. -/
def repeatedKeyPage2 : GetParametersByPathOutput :=
  { Parameters := [{ Name := some "/app/prod/A".toList, Value := some "2".toList }],
    NextToken := none }

/-- An environment that only names the path `/app/prod`. -/
def pathOnlyEnv : Environment :=
  [(ENV_INJECTOR_PATH, "/app/prod".toList)]

/-- A parameter that lies outside `/app/prod`. -/
def outsideParam : Parameter :=
  { Name := some "/app/other/X".toList, Value := some "v".toList }

/-- A parameter with a relative name, which filepath.Rel cannot relate to `/app/prod`. -/
def relativeParam : Parameter :=
  { Name := some "app/x".toList, Value := some "v".toList }

/-- A page whose first value for `/app/prod/A` is one NUL byte. -/
def nulValuePage : GetParametersByPathOutput :=
  { Parameters := [{ Name := some "/app/prod/A".toList, Value := some [NUL] },
                   { Name := some "/app/prod/A".toList, Value := some "x".toList }],
    NextToken := none }

/-- A store that holds `secrets.API_KEY` with a value made of one NUL byte. -/
def nulValueStore : GetParametersInput → Answer GetParametersOutput :=
  fun request =>
    if request.Names = ["secrets.API_KEY".toList] then
      .ok { Parameters := [{ Name := some "secrets.API_KEY".toList, Value := some [NUL] }],
            InvalidParameters := [] }
    else .ok { Parameters := [], InvalidParameters := request.Names.map some }

/-- An environment with the marker `API_KEY:1` next to a set variable `API_KEY`. -/
def selectorEnv : Environment :=
  [(ENV_INJECTOR_PREFIX, "secrets".toList), ("API_KEY".toList, "old".toList),
   ("API_KEY:1".toList, [])]

/-- A store that reads `secrets.API_KEY:1` as version 1 of `secrets.API_KEY` and
returns that parameter under its own name. -/
def selectorStore : GetParametersInput → Answer GetParametersOutput :=
  fun request =>
    if request.Names = ["secrets.API_KEY:1".toList] then
      .ok { Parameters := [{ Name := some "secrets.API_KEY".toList, Value := some "new".toList }],
            InvalidParameters := [] }
    else .ok { Parameters := [], InvalidParameters := request.Names.map some }

/-- A store whose fetch of `secrets.A` fails and that holds `secrets.B = b`. -/
def failingStore : GetParametersInput → Answer GetParametersOutput :=
  fun request =>
    if request.Names = ["secrets.A".toList] then .error "transport error".toList
    else if request.Names = ["secrets.B".toList] then
      .ok { Parameters := [{ Name := some "secrets.B".toList, Value := some "b".toList }],
            InvalidParameters := [] }
    else .ok { Parameters := [], InvalidParameters := request.Names.map some }

/-- A store that answers the request for `secrets.A` with the parameter `secrets.B`
and whose fetch of `secrets.B` fails. -/
def crossStore : GetParametersInput → Answer GetParametersOutput :=
  fun request =>
    if request.Names = ["secrets.A".toList] then
      .ok { Parameters := [{ Name := some "secrets.B".toList, Value := some "fromA".toList }],
            InvalidParameters := [] }
    else .error "transport error".toList

/-- An environment with the two markers `A` and `B`. -/
def twoMarkersEnv : Environment :=
  [(ENV_INJECTOR_PREFIX, "secrets".toList), ("A".toList, []), ("B".toList, [])]

/-- The first page of the path scenario. -/
def scenarioPage1 : GetParametersByPathOutput :=
  { Parameters := [{ Name := some "/app/prod/DB_HOST".toList, Value := some "host1".toList }],
    NextToken := some "t1".toList }

/-- The second and last page of the path scenario. -/
def scenarioPage2 : GetParametersByPathOutput :=
  { Parameters := [{ Name := some "/app/prod/DB_PORT".toList, Value := some "5432".toList }],
    NextToken := none }

/-! ## The environment operations -/

theorem lookupEnv_setBinding_self (key value : Str) (env : Environment) :
    lookupEnv key (setBinding key value env) = some value := by
  induction env with
  | nil => simp [setBinding, lookupEnv]
  | cons kv rest ih =>
    obtain ⟨k, v⟩ := kv
    by_cases h : k = key
    · simp [setBinding, lookupEnv, h]
    · simp [setBinding, lookupEnv, h, ih]

theorem lookupEnv_setBinding_ne {K key : Str} (value : Str) (env : Environment)
    (h : K ≠ key) : lookupEnv K (setBinding key value env) = lookupEnv K env := by
  have h1 : ¬ key = K := fun e => h e.symm
  induction env with
  | nil => simp [setBinding, lookupEnv, h1]
  | cons kv rest ih =>
    obtain ⟨k, v⟩ := kv
    by_cases hk : k = key
    · subst hk
      simp [setBinding, lookupEnv, h1]
    · by_cases hK : k = K
      · subst hK
        simp [setBinding, lookupEnv, hk]
      · simp [setBinding, lookupEnv, hk, hK, ih]

theorem setenvIgnoringError_valid (env : Environment) {key value : Str}
    (hk : validKey key = true) (hv : validValue value = true) :
    setenvIgnoringError env key value = setBinding key value env := by
  simp [setenvIgnoringError, Setenv, hk, hv]

theorem setenvIgnoringError_invalid (env : Environment) {key value : Str}
    (h : (validKey key && validValue value) = false) :
    setenvIgnoringError env key value = env := by
  simp only [setenvIgnoringError, Setenv, h]
  rfl

theorem setenvIgnoringError_cases (env : Environment) (key value : Str) :
    setenvIgnoringError env key value = env ∨
      setenvIgnoringError env key value = setBinding key value env := by
  cases h : (validKey key && validValue value)
  · exact Or.inl (setenvIgnoringError_invalid env h)
  · right
    simp only [Bool.and_eq_true] at h
    exact setenvIgnoringError_valid env h.1 h.2

theorem lookupEnv_setenvIgnoringError_ne {K key : Str} (value : Str) (env : Environment)
    (h : K ≠ key) : lookupEnv K (setenvIgnoringError env key value) = lookupEnv K env := by
  rcases setenvIgnoringError_cases env key value with e | e
  · rw [e]
  · rw [e, lookupEnv_setBinding_ne value env h]

theorem validKey_ne_nil {key : Str} (h : validKey key = true) : key ≠ [] := by
  intro e
  subst e
  simp [validKey] at h

theorem Getenv_of_lookupEnv_eq {env1 env2 : Environment} {K : Str}
    (h : lookupEnv K env1 = lookupEnv K env2) : Getenv env1 K = Getenv env2 K := by
  simp [Getenv, h]

theorem Getenv_setBinding_self {key : Str} (value : Str) (env : Environment)
    (h : key ≠ []) : Getenv (setBinding key value env) key = value := by
  simp [Getenv, h, lookupEnv_setBinding_self]

theorem map_fst_setBinding (key value : Str) (env : Environment) :
    (setBinding key value env).map Prod.fst =
      if key ∈ env.map Prod.fst then env.map Prod.fst else env.map Prod.fst ++ [key] := by
  induction env with
  | nil => simp [setBinding]
  | cons kv rest ih =>
    obtain ⟨k, v⟩ := kv
    by_cases hk : k = key
    · subst hk
      simp [setBinding]
    · have hk2 : ¬ key = k := fun e => hk e.symm
      simp only [setBinding, hk, if_false, List.map_cons, ih, List.mem_cons, hk2, false_or]
      split <;> simp

/-- A successful os.Setenv keeps the environment well formed. -/
theorem Setenv_wellFormed (env env1 : Environment) (key value : Str)
    (hwf : wellFormed env) (h : Setenv env key value = .ok env1) : wellFormed env1 := by
  unfold Setenv at h
  split at h
  · rename_i hvalid
    simp only [Bool.and_eq_true] at hvalid
    cases h
    have hkey : '=' ∉ key := by
      have := hvalid.1
      simp only [validKey, Bool.and_eq_true, List.all_eq_true] at this
      intro hmem
      have := this.2 _ hmem
      simp at this
    constructor
    · intro kv hkv
      have : kv.1 ∈ (setBinding key value env).map Prod.fst := List.mem_map_of_mem _ hkv
      rw [map_fst_setBinding] at this
      have hold : ∀ k ∈ env.map Prod.fst, '=' ∉ k := by
        intro k hk
        obtain ⟨kv2, hkv2, rfl⟩ := List.mem_map.mp hk
        exact hwf.1 kv2 hkv2
      split at this
      · exact hold _ this
      · rcases List.mem_append.mp this with h1 | h1
        · exact hold _ h1
        · simp only [List.mem_singleton] at h1
          rw [h1]
          exact hkey
    · rw [map_fst_setBinding]
      split
      · exact hwf.2
      · rename_i hnot
        exact List.Nodup.append hwf.2 (List.nodup_singleton _) (by simpa using hnot)
  · cases h

/-- Both injectors only change the environment through os.Setenv, so they keep it
well formed. -/
theorem setenvIgnoringError_wellFormed (env : Environment) (key value : Str)
    (hwf : wellFormed env) : wellFormed (setenvIgnoringError env key value) := by
  unfold setenvIgnoringError
  cases h : Setenv env key value with
  | error e => exact hwf
  | ok env1 => exact Setenv_wellFormed env env1 key value hwf h

/-! ## filepath.Clean on a path that begins with the separator -/

theorem cleanBacktrack_cons (d : Nat) (c : Char) (rest : List Char) :
    cleanBacktrack d (c :: rest) =
      if d < rest.length ∧ c ≠ '/' then cleanBacktrack d rest else rest := rfl

theorem cleanBacktrack_elem (w t : List Char) (hw : '/' ∉ w) (ht : 1 < t.length) :
    cleanBacktrack 1 (w ++ '/' :: t) = t := by
  induction w with
  | nil =>
    rw [List.nil_append, cleanBacktrack_cons, if_neg]
    simp
  | cons c w ih =>
    have hc : c ≠ '/' := fun e => hw (by simp [e])
    have hw2 : '/' ∉ w := fun hm => hw (List.mem_cons_of_mem _ hm)
    have hlen : 1 < (w ++ '/' :: t).length := by
      rw [List.length_append, List.length_cons]; omega
    rw [List.cons_append, cleanBacktrack_cons, if_pos ⟨hlen, hc⟩]
    exact ih hw2

theorem cleanBacktrack_first (w : List Char) (hw : '/' ∉ w) (hne : w ≠ []) :
    cleanBacktrack 1 (w ++ ['/']) = ['/'] := by
  induction w with
  | nil => exact absurd rfl hne
  | cons c w ih =>
    have hc : c ≠ '/' := fun e => hw (by simp [e])
    have hw2 : '/' ∉ w := fun hm => hw (List.mem_cons_of_mem _ hm)
    cases w with
    | nil =>
      rw [List.cons_append, List.nil_append, cleanBacktrack_cons, if_neg]
      simp
    | cons d w =>
      have hlen : 1 < ((d :: w) ++ ['/']).length := by
        rw [List.length_append, List.length_cons, List.length_singleton]; omega
      rw [List.cons_append, cleanBacktrack_cons, if_pos ⟨hlen, hc⟩]
      exact ih hw2 (by simp)

theorem elemsBuffer_length (e : Str) (es : List Str) (he : cleanElem e) :
    1 < (elemsBuffer (e :: es)).length := by
  have : e.length ≠ 0 := fun h => he.1 (List.length_eq_zero.mp h)
  simp only [elemsBuffer, List.length_append, List.length_reverse, List.length_cons]
  omega

theorem rootedBuffer_backtrack (e : Str) (es : List Str) (he : cleanElem e)
    (hes : ∀ x ∈ es, cleanElem x) :
    cleanBacktrack 1 (rootedBuffer (e :: es)) = rootedBuffer es := by
  have hw : '/' ∉ e.reverse := fun h => he.2.1 (List.mem_reverse.mp h)
  cases es with
  | nil =>
    exact cleanBacktrack_first e.reverse hw (fun h => he.1 (List.reverse_eq_nil_iff.mp h))
  | cons x xs =>
    exact cleanBacktrack_elem e.reverse _ hw
      (elemsBuffer_length x xs (hes x (List.mem_cons_self _ _)))

theorem rootedBuffer_append (elem : Str) (es : List Str) (hes : ∀ x ∈ es, cleanElem x) :
    elem.reverse ++
        (if (True ∧ (rootedBuffer es).length ≠ 1) ∨
            ((!true) = true ∧ (rootedBuffer es).length ≠ 0)
          then '/' :: rootedBuffer es else rootedBuffer es) =
      rootedBuffer (elem :: es) := by
  cases es with
  | nil => simp [rootedBuffer, elemsBuffer]
  | cons x xs =>
    have hlen := elemsBuffer_length x xs (hes x (List.mem_cons_self _ _))
    have hne : (rootedBuffer (x :: xs)).length ≠ 1 := by
      simp only [rootedBuffer]; omega
    simp only [hne, ne_eq, not_false_eq_true, and_self, true_or, if_true]
    rfl

theorem takeWhile_cleanElem (c : Char) (rest : List Char) (hc : ¬ c = '/')
    (hdd : ¬ (c = '.' ∧ rest.head? = some '.' ∧
      (rest.tail = [] ∨ rest.tail.head? = some '/'))) :
    cleanElem ((c :: rest).takeWhile (fun x => x ≠ '/')) := by
  have hcons : (c :: rest).takeWhile (fun x => x ≠ '/') =
      c :: rest.takeWhile (fun x => x ≠ '/') := by
    simp [List.takeWhile_cons, hc]
  refine ⟨?_, ?_, ?_⟩
  · rw [hcons]; simp
  · intro hmem
    have := List.mem_takeWhile_imp hmem
    simp at this
  · rw [hcons]
    intro h
    apply hdd
    simp only [List.cons.injEq] at h
    obtain ⟨h1, h2⟩ := h
    refine ⟨h1, ?_⟩
    cases rest with
    | nil => simp at h2
    | cons d rest2 =>
      by_cases hd : d = '/'
      · simp [List.takeWhile_cons, hd] at h2
      · simp only [List.takeWhile_cons, hd, ne_eq, not_false_eq_true, decide_True, if_true,
          List.cons.injEq] at h2
        refine ⟨by simp [h2.1], ?_⟩
        cases rest2 with
        | nil => left; rfl
        | cons f rest3 =>
          right
          by_cases hf : f = '/'
          · simp [hf]
          · simp [List.takeWhile_cons, hf] at h2

/-- On a path that begins with the separator, the loop of filepath.Clean keeps in its
buffer the root and clean elements only. -/
theorem cleanLoop_rooted : ∀ (fuel : Nat) (path : List Char) (es : List Str),
    (∀ x ∈ es, cleanElem x) →
    ∃ es1, (∀ x ∈ es1, cleanElem x) ∧
      cleanLoop true fuel path (rootedBuffer es) 1 = rootedBuffer es1
  | 0, _, es, h => ⟨es, h, by simp [cleanLoop]⟩
  | _ + 1, [], es, h => ⟨es, h, by simp [cleanLoop]⟩
  | fuel + 1, c :: rest, es, h => by
    rw [cleanLoop]
    by_cases h1 : c = '/'
    · rw [if_pos h1]
      exact cleanLoop_rooted fuel rest es h
    · rw [if_neg h1]
      by_cases h2 : c = '.' ∧ (rest = [] ∨ rest.head? = some '/')
      · rw [if_pos h2]
        exact cleanLoop_rooted fuel rest es h
      · rw [if_neg h2]
        by_cases h3 : c = '.' ∧ rest.head? = some '.' ∧
            (rest.tail = [] ∨ rest.tail.head? = some '/')
        · rw [if_pos h3]
          by_cases h4 : 1 < (rootedBuffer es).length
          · rw [if_pos h4]
            cases es with
            | nil => simp [rootedBuffer] at h4
            | cons e es2 =>
              rw [rootedBuffer_backtrack e es2 (h e (List.mem_cons_self _ _))
                (fun x hx => h x (List.mem_cons_of_mem _ hx))]
              exact cleanLoop_rooted fuel rest.tail es2
                (fun x hx => h x (List.mem_cons_of_mem _ hx))
          · rw [if_neg h4]
            simp only [Bool.not_true, Bool.false_eq_true, if_false]
            exact cleanLoop_rooted fuel rest.tail es h
        · rw [if_neg h3]
          simp only []
          rw [rootedBuffer_append _ es h]
          apply cleanLoop_rooted fuel _ (_ :: es)
          intro x hx
          rcases List.mem_cons.mp hx with e | hmem
          · rw [e]
            exact takeWhile_cleanElem c rest h1 h3
          · exact h x hmem

theorem takeWhile_append_stop (l m : List Char) :
    (l ++ '/' :: m).takeWhile (fun x => x ≠ '/') = l.takeWhile (fun x => x ≠ '/') := by
  induction l with
  | nil => simp [List.takeWhile_cons]
  | cons c l ih =>
    by_cases hc : c = '/'
    · simp [List.takeWhile_cons, hc]
    · rw [List.cons_append, List.takeWhile_cons, List.takeWhile_cons, ih]

theorem takeWhile_no_separator (e : List Char) (he : '/' ∉ e) :
    e.takeWhile (fun x => x ≠ '/') = e := by
  rw [List.takeWhile_eq_self_iff]
  intro x hx
  have : x ≠ '/' := fun h => he (h ▸ hx)
  simpa using this

theorem elemsBuffer_reverse (e : Str) (es : List Str) :
    (elemsBuffer (e :: es)).reverse = (elemsBuffer es).reverse ++ '/' :: e := by
  simp [elemsBuffer]

theorem noDotDot_elemsBuffer (es : List Str) (hes : ∀ x ∈ es, cleanElem x) :
    noDotDot (elemsBuffer es).reverse := by
  induction es with
  | nil =>
    intro X b h _
    have hb : b = [] := by
      have := congrArg List.length h
      simp [elemsBuffer] at this
      exact List.length_eq_zero.mp (by omega)
    simp [hb]
  | cons e es ih =>
    have he := hes e (List.mem_cons_self _ _)
    have ih2 := ih (fun x hx => hes x (List.mem_cons_of_mem _ hx))
    intro X b h hX
    rw [elemsBuffer_reverse] at h
    rcases List.append_eq_append_iff.mp h with ⟨a, hXa, hb⟩ | ⟨c, hR, hb⟩
    · -- the boundary lies at or behind the last separator
      cases a with
      | nil =>
        simp only [List.nil_append] at hb
        rw [← hb]
        simp [List.takeWhile_cons]
      | cons d a =>
        simp only [List.cons_append, List.cons.injEq] at hb
        obtain ⟨-, he2⟩ := hb
        cases a with
        | nil =>
          simp only [List.nil_append] at he2
          rw [← he2, takeWhile_no_separator e he.2.1]
          exact he.2.2
        | cons f a =>
          exfalso
          rcases hX with hnil | hlast
          · rw [hXa] at hnil
            simp at hnil
          · rw [hXa] at hlast
            have hl : ((elemsBuffer es).reverse ++ d :: f :: a).getLast? =
                (f :: a).getLast? := by
              rw [show (elemsBuffer es).reverse ++ d :: f :: a =
                ((elemsBuffer es).reverse ++ [d]) ++ (f :: a) by simp]
              exact List.getLast?_append_of_ne_nil _ (by simp)
            rw [hl] at hlast
            have hmem : '/' ∈ f :: a := List.mem_of_getLast?_eq_some hlast
            apply he.2.1
            rw [he2]
            exact List.mem_append_left _ hmem
    · -- the boundary lies in the part before the last separator
      rw [hb, takeWhile_append_stop]
      exact ih2 X c hR hX

theorem noDotDot_rootedBuffer (es : List Str) (hes : ∀ x ∈ es, cleanElem x) :
    noDotDot (rootedBuffer es).reverse := by
  cases es with
  | nil =>
    intro X b h hX
    cases X with
    | nil =>
      simp only [List.nil_append] at h
      rw [← h]
      simp [rootedBuffer, List.takeWhile_cons]
    | cons x X =>
      have h2 : ['/'] = x :: (X ++ b) := h
      have h3 : X ++ b = [] := (List.cons.inj h2).2.symm
      have hb : b = [] := (List.append_eq_nil.mp h3).2
      simp [hb]
  | cons e es => exact noDotDot_elemsBuffer (e :: es) hes

theorem rootedBuffer_head (es : List Str) :
    (rootedBuffer es).reverse.head? = some '/' := by
  induction es with
  | nil => rfl
  | cons e es ih =>
    cases es with
    | nil => simp [rootedBuffer, elemsBuffer]
    | cons x xs =>
      have : rootedBuffer (e :: x :: xs) = e.reverse ++ '/' :: rootedBuffer (x :: xs) := rfl
      rw [this]
      simp only [List.reverse_append, List.reverse_cons, List.reverse_reverse,
        List.append_assoc]
      rw [List.head?_append_of_ne_nil]
      · exact ih
      · intro h
        have := congrArg List.length h
        simp [rootedBuffer, elemsBuffer] at this

/-- On a path that begins with the separator, filepath.Clean gives a path that begins
with the separator and has no `..` element. -/
theorem Clean_rooted (path : Str) (h : path.head? = some '/') :
    (Clean path).head? = some '/' ∧ noDotDot (Clean path) := by
  have hne : path ≠ [] := by
    intro e
    rw [e] at h
    simp at h
  obtain ⟨es, hes, hloop⟩ := cleanLoop_rooted path.length path.tail [] (by simp)
  have hroot : rootedBuffer [] = ['/'] := rfl
  rw [hroot] at hloop
  have hclean : Clean path = (rootedBuffer es).reverse := by
    have hlen : (rootedBuffer es).length ≠ 0 := by
      cases es with
      | nil => simp [rootedBuffer]
      | cons e es => simp [rootedBuffer, elemsBuffer]
    simp [Clean, hne, h, hloop, hlen]
  rw [hclean]
  exact ⟨rootedBuffer_head es, noDotDot_rootedBuffer es hes⟩

/-! ## filepath.Clean on a path that does not begin with the separator -/

theorem getLast?_cons_ne (c : Char) (rest : List Char)
    (h : (c :: rest).getLast? ≠ some '/') : rest.getLast? ≠ some '/' := by
  cases rest with
  | nil => simp
  | cons d rest =>
    rw [List.getLast?_cons_cons] at h
    exact h

theorem cleanBacktrack_getLast (d : Nat) (out : List Char)
    (h : out.getLast? ≠ some '/') : (cleanBacktrack d out).getLast? ≠ some '/' := by
  induction out with
  | nil => simp [cleanBacktrack]
  | cons c rest ih =>
    have hrest := getLast?_cons_ne c rest h
    rw [cleanBacktrack_cons]
    split
    · exact ih hrest
    · exact hrest

theorem getLast?_push_ne (w out : List Char) (hw : ∀ h : w ≠ [], w.head h ≠ '/')
    (h : out.getLast? ≠ some '/') :
    (w.reverse ++ (if out.length ≠ 0 then '/' :: out else out)).getLast? ≠ some '/' := by
  cases out with
  | nil =>
    simp only [List.length_nil, ne_eq, not_true_eq_false, if_false, List.append_nil]
    rw [List.getLast?_reverse]
    cases w with
    | nil => simp
    | cons c w =>
      have := hw (by simp)
      simpa using this
  | cons d out =>
    simp only [List.length_cons, ne_eq, Nat.add_one_ne_zero, not_false_eq_true, if_true]
    rw [List.getLast?_append_of_ne_nil _ (by simp), List.getLast?_cons_cons]
    exact h

/-- On a path that does not begin with the separator, the buffer of filepath.Clean
never begins with the separator. -/
theorem cleanLoop_unrooted : ∀ (fuel : Nat) (path out : List Char) (dotdot : Nat),
    out.getLast? ≠ some '/' →
    (cleanLoop false fuel path out dotdot).getLast? ≠ some '/'
  | 0, _, out, _, h => by simpa [cleanLoop] using h
  | _ + 1, [], out, _, h => by simpa [cleanLoop] using h
  | fuel + 1, c :: rest, out, dotdot, h => by
    rw [cleanLoop]
    by_cases h1 : c = '/'
    · rw [if_pos h1]
      exact cleanLoop_unrooted fuel rest out dotdot h
    · rw [if_neg h1]
      by_cases h2 : c = '.' ∧ (rest = [] ∨ rest.head? = some '/')
      · rw [if_pos h2]
        exact cleanLoop_unrooted fuel rest out dotdot h
      · rw [if_neg h2]
        by_cases h3 : c = '.' ∧ rest.head? = some '.' ∧
            (rest.tail = [] ∨ rest.tail.head? = some '/')
        · rw [if_pos h3]
          by_cases h4 : dotdot < out.length
          · rw [if_pos h4]
            exact cleanLoop_unrooted fuel rest.tail _ dotdot (cleanBacktrack_getLast dotdot out h)
          · rw [if_neg h4]
            simp only [Bool.not_false, if_true]
            apply cleanLoop_unrooted
            have := getLast?_push_ne ['.', '.'] out (by simp) h
            by_cases hlen : 0 < out.length
            · have hne : out.length ≠ 0 := by omega
              simpa [hlen, hne] using this
            · have hne : ¬ out.length ≠ 0 := by omega
              simpa [hlen, hne] using this
        · rw [if_neg h3]
          simp only []
          apply cleanLoop_unrooted
          have hhead : ∀ hne : (c :: rest).takeWhile (fun x => x ≠ '/') ≠ [],
              ((c :: rest).takeWhile (fun x => x ≠ '/')).head hne ≠ '/' := by
            intro hne
            have hmem := List.head_mem hne
            have := List.mem_takeWhile_imp hmem
            simpa using this
          have := getLast?_push_ne _ out hhead h
          simpa using this

theorem Clean_unrooted (path : Str) (h : path.head? ≠ some '/') :
    (Clean path).head? ≠ some '/' := by
  by_cases hne : path = []
  · simp [Clean, hne]
  · have hr : (path.head? == some '/') = false := by simpa using h
    have hloop := cleanLoop_unrooted path.length path [] 0 (by simp)
    simp only [Clean, hne, if_false, hr, Bool.false_eq_true]
    split
    · simp
    · rw [List.head?_reverse]
      exact hloop

/-! ## filepath.Rel: when it reports an error -/

theorem slice_skipElem (s : Str) (i : Nat) :
    slice s i (skipElem s i) = (s.drop i).takeWhile (fun x => x ≠ '/') := by
  unfold slice skipElem
  rw [List.drop_take]
  simp only [Nat.add_sub_cancel_left]
  exact (List.prefix_iff_eq_take.mp (List.takeWhile_prefix _)).symm

theorem slice_self (s : Str) (i : Nat) : slice s i i = [] := by
  unfold slice
  rw [List.drop_take]
  simp

theorem getElem?_takeWhile_length (l : List Char) :
    (l.takeWhile (fun x => x ≠ '/')).length < l.length →
      l[(l.takeWhile (fun x => x ≠ '/')).length]? = some '/' := by
  induction l with
  | nil => simp
  | cons c l ih =>
    by_cases hc : c = '/'
    · simp [List.takeWhile_cons, hc]
    · intro h
      simp only [List.takeWhile_cons, hc, ne_eq, not_false_eq_true, decide_True, if_true,
        List.length_cons, Nat.add_lt_add_iff_right] at h ⊢
      rw [List.getElem?_cons_succ]
      exact ih h

theorem take_skipElem_succ (s : Str) (i : Nat) (h : skipElem s i < s.length) :
    (s.take (skipElem s i + 1)).getLast? = some '/' := by
  have hk : ((s.drop i).takeWhile (fun x => x ≠ '/')).length < (s.drop i).length := by
    unfold skipElem at h
    rw [List.length_drop]
    omega
  have h1 := getElem?_takeWhile_length (s.drop i) hk
  rw [List.getElem?_drop] at h1
  rw [List.take_succ]
  unfold skipElem
  rw [h1]
  simp

theorem elem_ne_dotDot (base : Str) (p : RelPos) (hbase : noDotDot base)
    (hp : atElemStart base p) :
    (base.drop p.b0).takeWhile (fun x => x ≠ '/') ≠ ['.', '.'] := by
  rcases hp.2 with hb | hlen
  · exact hbase (base.take p.b0) (base.drop p.b0) (List.take_append_drop _ _).symm hb
  · rw [List.drop_eq_nil_of_le hlen]
    simp

/-- When the base has no `..` element, the loop of filepath.Rel does not stop at one. -/
theorem relLoop_ne_dotDot (base targ : Str) (hbase : noDotDot base) :
    ∀ (fuel : Nat) (p : RelPos), atElemStart base p →
      slice base (relLoop base targ fuel p).b0 (relLoop base targ fuel p).bi ≠ ['.', '.']
  | 0, p, hp => by
    rw [relLoop, hp.1, slice_self]
    simp
  | fuel + 1, p, hp => by
    rw [relLoop]
    split
    · simp only []
      split
      · -- the elements differ: the loop stops at the element of the base that starts at b0
        simp only []
        rw [hp.1, slice_skipElem]
        exact elem_ne_dotDot base p hbase hp
      · apply relLoop_ne_dotDot base targ hbase fuel
        refine ⟨rfl, ?_⟩
        simp only []
        split
        · rename_i hlt
          left; right
          exact take_skipElem_succ base p.bi hlt
        · rename_i hlt
          right
          omega
    · rw [hp.1, slice_self]
      simp

theorem slashed_eq_true (s : Str) (h : s.head? = some '/') :
    (decide (0 < s.length) && (s.head? == some '/')) = true := by
  cases s with
  | nil => simp at h
  | cons c s => simp at h; simp [h]

theorem slashed_eq_false (s : Str) (h : s.head? ≠ some '/') :
    (decide (0 < s.length) && (s.head? == some '/')) = false := by
  cases s with
  | nil => simp
  | cons c s => simp at h; simp [h]

/-- Some entries of the table of filepath.Rel: a target outside the base is reached
through `..`; the parent of a parent, a base `..` and paths of which only one begins
with the separator cannot be related. -/
theorem Rel_examples :
    Rel "a/b".toList "a/b/c/d".toList = .ok "c/d".toList ∧
      Rel "/a/b/c".toList "/a/c/d".toList = .ok "../../c/d".toList ∧
      Rel "/a".toList "/b/c".toList = .ok "../b/c".toList ∧
      Rel "/a/b/c/d".toList "/a/b/".toList = .ok "../..".toList ∧
      Rel ".".toList "a/b".toList = .ok "a/b".toList ∧
      (Rel "..".toList "a".toList).isOk = false ∧
      (Rel "../..".toList "..".toList).isOk = false ∧
      (Rel "/a".toList "a".toList).isOk = false ∧
      (Rel "/a".toList "./b/c".toList).isOk = false := by
  decide

/-- When exactly one of the two paths begins with the separator, filepath.Rel reports
an error. -/
theorem Rel_error_of_mismatch (path name : Str)
    (h : (path.head? = some '/' ∧ name.head? ≠ some '/') ∨
      (path.head? ≠ some '/' ∧ name.head? = some '/')) :
    ∃ e, Rel path name = .error e := by
  refine ⟨"Rel: can't make ".toList ++ name ++ " relative to ".toList ++ path, ?_⟩
  unfold Rel
  simp only []
  rcases h with ⟨hp, hn⟩ | ⟨hp, hn⟩
  · have hb := (Clean_rooted path hp).1
    have ht := Clean_unrooted name hn
    have hne : Clean name ≠ Clean path := fun e => ht (e ▸ hb)
    have hdot : Clean path ≠ ['.'] := by
      intro e
      rw [e] at hb
      simp at hb
    rw [if_neg hne, if_neg hdot, slashed_eq_true _ hb, slashed_eq_false _ ht]
    simp
  · have hb := Clean_unrooted path hp
    have ht := (Clean_rooted name hn).1
    have hne : Clean name ≠ Clean path := fun e => hb (e ▸ ht)
    have hb2 : (if Clean path = ['.'] then [] else Clean path).head? ≠ some '/' := by
      split
      · simp
      · exact hb
    rw [if_neg hne, slashed_eq_false _ hb2, slashed_eq_true _ ht]
    simp

/-- When both paths begin with the separator, filepath.Rel reports no error. -/
theorem Rel_ok_of_rooted (path name : Str)
    (hp : path.head? = some '/') (hn : name.head? = some '/') :
    ∃ key, Rel path name = .ok key := by
  obtain ⟨hb, hdd⟩ := Clean_rooted path hp
  have ht := (Clean_rooted name hn).1
  have hdot : Clean path ≠ ['.'] := by
    intro e
    rw [e] at hb
    simp at hb
  unfold Rel
  simp only []
  by_cases heq : Clean name = Clean path
  · exact ⟨['.'], by rw [if_pos heq]⟩
  · rw [if_neg heq, if_neg hdot, slashed_eq_true _ hb, slashed_eq_true _ ht]
    simp only [ne_eq, not_true_eq_false, if_false]
    have hloop := relLoop_ne_dotDot (Clean path) (Clean name) hdd
      ((Clean path).length + (Clean name).length + 1)
      { b0 := 0, bi := 0, t0 := 0, ti := 0 } ⟨rfl, Or.inl (Or.inl rfl)⟩
    rw [if_neg hloop]
    split
    · split
      · exact ⟨_, rfl⟩
      · exact ⟨_, rfl⟩
    · exact ⟨_, rfl⟩

/-! ## Path Injector: one parameter, one page -/

theorem injectParam_lookupEnv_ne (rel : Relativize) (path : Str) (env : Environment) (param : Parameter)
    {K : Str} (h : rel path (StringValue param.Name) ≠ .ok K) :
    lookupEnv K (injectParamWith rel path env param) = lookupEnv K env := by
  unfold injectParamWith
  cases hr : rel path (StringValue param.Name) with
  | error e => rfl
  | ok key =>
    have hne : K ≠ key := by
      intro e
      apply h
      rw [hr, e]
    simp only []
    split
    · exact lookupEnv_setenvIgnoringError_ne _ env hne
    · rfl

theorem injectParam_keeps (rel : Relativize) (path : Str) (env : Environment) (param : Parameter)
    {K : Str} (h : Getenv env K ≠ []) :
    Getenv (injectParamWith rel path env param) K = Getenv env K := by
  by_cases hr : rel path (StringValue param.Name) = .ok K
  · simp [injectParamWith, hr, h]
  · exact Getenv_of_lookupEnv_eq (injectParam_lookupEnv_ne rel path env param hr)

theorem foldl_injectParam_keeps (rel : Relativize) (path : Str) (params : List Parameter) (env : Environment)
    {K : Str} (h : Getenv env K ≠ []) :
    Getenv (params.foldl (injectParamWith rel path) env) K = Getenv env K := by
  induction params generalizing env with
  | nil => rfl
  | cons p rest ih =>
    have h1 := injectParam_keeps rel path env p h
    rw [List.foldl_cons, ih _ (by rw [h1]; exact h), h1]

theorem pathLoop_keeps (rel : Relativize) (path : Str) (answers : List (Answer GetParametersByPathOutput))
    (token : Option Str) (env : Environment) (sent : List GetParametersByPathInput)
    {K : Str} (h : Getenv env K ≠ []) :
    Getenv (pathLoopWith rel path answers token env sent).env K = Getenv env K := by
  induction answers generalizing token env sent with
  | nil => rfl
  | cons answer rest ih =>
    cases answer with
    | error e => rfl
    | ok result =>
      have h1 := foldl_injectParam_keeps rel path result.Parameters env h
      simp only [pathLoopWith]
      split
      · exact h1
      · rw [ih _ _ _ (by rw [h1]; exact h), h1]

/-! ## Path Injector: pagination -/

theorem allParameters_append (pages1 pages2 : List GetParametersByPathOutput) :
    allParameters (pages1 ++ pages2) = allParameters pages1 ++ allParameters pages2 := by
  induction pages1 with
  | nil => rfl
  | cons page rest ih => simp [allParameters, ih]

theorem sentTokens_lastToken (token : Option Str) (pages : List GetParametersByPathOutput) :
    sentTokens token pages ++ [lastToken token pages] =
      token :: pages.map (fun page => page.NextToken) := by
  induction pages generalizing token with
  | nil => rfl
  | cons page more ih => simp [sentTokens, lastToken, ih]

/-- Pages that all carry a non-empty continuation token are consumed one after the
other; the loop then goes on with the answers that follow them. -/
theorem pathLoop_continue (rel : Relativize) (path : Str) (pages : List GetParametersByPathOutput)
    (tail : List (Answer GetParametersByPathOutput))
    (token : Option Str) (env : Environment) (sent : List GetParametersByPathInput)
    (hmid : ∀ page ∈ pages, page.NextToken ≠ none ∧ StringValue page.NextToken ≠ []) :
    pathLoopWith rel path (pages.map Except.ok ++ tail) token env sent =
      pathLoopWith rel path tail (lastToken token pages)
        ((allParameters pages).foldl (injectParamWith rel path) env)
        (sent ++ (sentTokens token pages).map (pathRequest path)) := by
  induction pages generalizing token env sent with
  | nil => simp [allParameters, lastToken, sentTokens]
  | cons page rest ih =>
    have hp := hmid page (List.mem_cons_self _ _)
    have hrest : ∀ pg ∈ rest, pg.NextToken ≠ none ∧ StringValue pg.NextToken ≠ [] :=
      fun pg hpg => hmid pg (List.mem_cons_of_mem _ hpg)
    have hcond : ¬ (page.NextToken = none ∨ StringValue page.NextToken = []) := by
      intro h
      rcases h with h | h
      · exact hp.1 h
      · exact hp.2 h
    simp only [List.map_cons, List.cons_append, pathLoopWith, hcond, if_false, List.append_eq]
    rw [ih _ _ _ hrest]
    simp [allParameters, List.foldl_append, pathRequest, lastToken, sentTokens]

/-- A run over pages `pages ++ [last]`, the last one alone without a token. -/
theorem pathLoop_paged (rel : Relativize) (path : Str) (pages : List GetParametersByPathOutput)
    (last : GetParametersByPathOutput) (rest : List (Answer GetParametersByPathOutput))
    (env : Environment)
    (hmid : ∀ page ∈ pages, page.NextToken ≠ none ∧ StringValue page.NextToken ≠ [])
    (hlast : last.NextToken = none ∨ StringValue last.NextToken = []) :
    pathLoopWith rel path ((pages ++ [last]).map Except.ok ++ rest) none env [] =
      { env := (allParameters (pages ++ [last])).foldl (injectParamWith rel path) env,
        requests := (none :: pages.map (fun page => page.NextToken)).map (pathRequest path),
        status := .returned } := by
  have h := pathLoop_continue rel path pages (Except.ok last :: rest) none env [] hmid
  simp only [List.map_append, List.map_cons, List.map_nil, List.append_assoc,
    List.singleton_append, List.nil_append] at h ⊢
  rw [h]
  simp only [pathLoopWith, hlast, if_true]
  rw [allParameters_append, List.foldl_append]
  have e := sentTokens_lastToken none pages
  simp only [allParameters, List.append_nil]
  congr 1
  have e2 := congrArg (List.map (pathRequest path)) e
  simp only [List.map_append, List.map_cons, List.map_nil] at e2
  exact e2

/-- A run whose answers are pages with tokens followed by an error. -/
theorem pathLoop_failed (rel : Relativize) (path : Str) (pages : List GetParametersByPathOutput)
    (e : Str) (rest : List (Answer GetParametersByPathOutput)) (env : Environment)
    (hmid : ∀ page ∈ pages, page.NextToken ≠ none ∧ StringValue page.NextToken ≠ []) :
    pathLoopWith rel path (pages.map Except.ok ++ Except.error e :: rest) none env [] =
      { env := (allParameters pages).foldl (injectParamWith rel path) env,
        requests := (none :: pages.map (fun page => page.NextToken)).map (pathRequest path),
        status := .fatal } := by
  rw [pathLoop_continue rel path pages _ none env [] hmid, ← sentTokens_lastToken none pages]
  simp [pathLoopWith, pathRequest]

/-! ## Path Injector: which value a key ends up with -/

theorem foldl_injectParam_untouched (rel : Relativize) (path : Str) (params : List Parameter)
    (env : Environment) {K : Str}
    (h : ∀ param ∈ params, rel path (StringValue param.Name) ≠ .ok K) :
    lookupEnv K (params.foldl (injectParamWith rel path) env) = lookupEnv K env := by
  induction params generalizing env with
  | nil => rfl
  | cons p rest ih =>
    rw [List.foldl_cons, ih _ (fun q hq => h q (List.mem_cons_of_mem _ hq))]
    exact injectParam_lookupEnv_ne rel path env p (h p (List.mem_cons_self _ _))

theorem injectParam_settles (rel : Relativize) (path : Str) (env : Environment) (param : Parameter) {K : Str}
    (h0 : Getenv env K = []) (hs : settles rel path K param = true) :
    Getenv (injectParamWith rel path env param) K = StringValue param.Value := by
  simp only [settles, Bool.and_eq_true, decide_eq_true_eq] at hs
  obtain ⟨hr, -, hK, hv⟩ := hs
  simp only [injectParamWith, hr, h0, if_true]
  rw [setenvIgnoringError_valid env hK hv]
  exact Getenv_setBinding_self _ env (validKey_ne_nil hK)

theorem injectParam_not_settles (rel : Relativize) (path : Str) (env : Environment) (param : Parameter)
    {K : Str} (h0 : Getenv env K = []) (hs : settles rel path K param = false) :
    Getenv (injectParamWith rel path env param) K = [] := by
  by_cases hr : rel path (StringValue param.Name) = .ok K
  · simp only [injectParamWith, hr, h0, if_true]
    rcases setenvIgnoringError_cases env K (StringValue param.Value) with e | e
    · rw [e, h0]
    · by_cases hv : (validKey K && validValue (StringValue param.Value)) = true
      · simp only [Bool.and_eq_true] at hv
        have hempty : StringValue param.Value = [] := by
          by_contra hne
          simp [settles, hr, hne, hv.1, hv.2] at hs
        rw [e, hempty]
        exact Getenv_setBinding_self _ env (validKey_ne_nil hv.1)
      · rw [setenvIgnoringError_invalid env (by simpa using hv), h0]
  · rw [Getenv_of_lookupEnv_eq (injectParam_lookupEnv_ne rel path env param hr), h0]

/-- The value of a key that starts unset or empty, after a list of parameters. -/
theorem foldl_injectParam_first (rel : Relativize) (path : Str) (params : List Parameter) (env : Environment)
    {K : Str} (h0 : Getenv env K = []) :
    Getenv (params.foldl (injectParamWith rel path) env) K =
      match params.find? (settles rel path K) with
      | some param => StringValue param.Value
      | none => [] := by
  induction params generalizing env with
  | nil => simpa using h0
  | cons p rest ih =>
    rw [List.foldl_cons]
    cases hs : settles rel path K p
    · rw [List.find?_cons_of_neg _ (by simp [hs])]
      exact ih _ (injectParam_not_settles rel path env p h0 hs)
    · rw [List.find?_cons_of_pos _ hs]
      have h1 := injectParam_settles rel path env p h0 hs
      have hne : StringValue p.Value ≠ [] := by
        simp only [settles, Bool.and_eq_true, decide_eq_true_eq] at hs
        exact hs.2.1
      rw [foldl_injectParam_keeps rel path rest _ (by rw [h1]; exact hne), h1]

/-! ## Prefix Injector: the names to fetch -/

theorem cutAt_entry (k v : Str) (h : '=' ∉ k) :
    cutAt '=' (k ++ '=' :: v) = some (k, v) := by
  induction k with
  | nil => simp [cutAt]
  | cons c rest ih =>
    have hc : ¬ c = '=' := fun e => h (by simp [e])
    have hrest : '=' ∉ rest := fun hm => h (List.mem_cons_of_mem _ hm)
    simp [cutAt, hc, ih hrest]

theorem SplitN_entry (k v : Str) (h : '=' ∉ k) :
    SplitN (k ++ '=' :: v) '=' 2 = [k, v] := by
  simp [SplitN, splitPieces, cutAt_entry k v h]

theorem collectNames_foldl (pre : Str) (env : Environment) (acc : List Str)
    (h : ∀ kv ∈ env, '=' ∉ kv.1) :
    (Environ env).foldl
      (fun names e =>
        let parts := SplitN e '=' 2
        if parts.length = 2 ∧ parts.getD 1 [] = [] then names ++ [pre ++ parts.getD 0 []]
        else names)
      acc = acc ++ (pendingNames env).map (fun n => pre ++ n) := by
  induction env generalizing acc with
  | nil => simp [Environ, pendingNames]
  | cons kv rest ih =>
    obtain ⟨k, v⟩ := kv
    have hk : '=' ∉ k := h (k, v) (List.mem_cons_self _ _)
    have hrest : ∀ kv ∈ rest, '=' ∉ kv.1 := fun kv hkv => h kv (List.mem_cons_of_mem _ hkv)
    have ih1 := ih acc hrest
    have ih2 := ih (acc ++ [pre ++ k]) hrest
    simp only [Environ] at ih1 ih2
    by_cases hv : v = []
    · subst hv
      simp only [Environ, List.map_cons, List.foldl_cons, SplitN_entry k [] hk]
      simp only [pendingNames] at ih2 ⊢
      simpa using ih2
    · simp only [Environ, List.map_cons, List.foldl_cons, SplitN_entry k v hk]
      simp only [pendingNames] at ih1 ⊢
      simpa [hv] using ih1

theorem collectNames_eq (pre : Str) (env : Environment) (h : ∀ kv ∈ env, '=' ∉ kv.1) :
    collectNames pre (Environ env) = (pendingNames env).map (fun n => pre ++ n) := by
  have e := collectNames_foldl pre env [] h
  simpa [collectNames] using e

/-! ## Prefix Injector: the loop over the names -/

theorem injectName_env (pre : Str) (svc : GetParametersInput → Answer GetParametersOutput)
    (run : PrefixRun) (n : Str) :
    (injectName pre svc run n).env = fetchInto pre svc run.env n := by
  simp only [injectName, fetchInto, nameRequest]
  generalize svc { Names := [n], WithDecryption := true } = answer
  cases answer <;> rfl

theorem injectName_requests (pre : Str) (svc : GetParametersInput → Answer GetParametersOutput)
    (run : PrefixRun) (n : Str) :
    (injectName pre svc run n).requests = run.requests ++ [nameRequest n] := by
  simp only [injectName, nameRequest]
  generalize svc { Names := [n], WithDecryption := true } = answer
  cases answer <;> rfl

theorem foldl_injectName (pre : Str) (svc : GetParametersInput → Answer GetParametersOutput)
    (names : List Str) (run : PrefixRun) :
    names.foldl (injectName pre svc) run =
      { env := names.foldl (fetchInto pre svc) run.env,
        requests := run.requests ++ names.map nameRequest } := by
  induction names generalizing run with
  | nil => simp
  | cons n rest ih =>
    rw [List.foldl_cons, ih, injectName_env, injectName_requests]
    simp

theorem injectNames_eq (pre : Str) (svc : GetParametersInput → Answer GetParametersOutput)
    (env : Environment) (names : List Str) :
    injectNames pre svc env names =
      { env := names.foldl (fetchInto pre svc) env, requests := names.map nameRequest } := by
  simp [injectNames, foldl_injectName]

theorem TrimPrefix_append (pre m : Str) : TrimPrefix (pre ++ m) pre = m := by
  have h : pre.isPrefixOf (pre ++ m) = true := by
    rw [List.isPrefixOf_iff_prefix]
    exact List.prefix_append pre m
  simp [TrimPrefix, h]

theorem foldl_injectFetched_lookupEnv_ne (pre m : Str) (params : List Parameter)
    (env : Environment) {K : Str} (hK : K ≠ m)
    (h : ∀ param ∈ params, StringValue param.Name = pre ++ m) :
    lookupEnv K (params.foldl (injectFetched pre) env) = lookupEnv K env := by
  induction params generalizing env with
  | nil => rfl
  | cons p rest ih =>
    rw [List.foldl_cons, ih _ (fun q hq => h q (List.mem_cons_of_mem _ hq))]
    unfold injectFetched
    rw [h p (List.mem_cons_self _ _), TrimPrefix_append]
    exact lookupEnv_setenvIgnoringError_ne _ env hK

theorem fetchInto_lookupEnv_ne (pre m : Str)
    (svc : GetParametersInput → Answer GetParametersOutput) (env : Environment) {K : Str}
    (hsvc : answersRequestedNames svc) (hK : K ≠ m) :
    lookupEnv K (fetchInto pre svc env (pre ++ m)) = lookupEnv K env := by
  unfold fetchInto
  cases hr : svc (nameRequest (pre ++ m)) with
  | error e => rfl
  | ok result =>
    apply foldl_injectFetched_lookupEnv_ne pre m result.Parameters env hK
    intro param hparam
    have := hsvc _ _ hr param hparam
    simpa [nameRequest] using this

theorem foldl_fetchInto_lookupEnv (pre : Str)
    (svc : GetParametersInput → Answer GetParametersOutput) (pending : List Str)
    (env : Environment) {K : Str} (hsvc : answersRequestedNames svc) (hK : K ∉ pending) :
    lookupEnv K ((pending.map (fun n => pre ++ n)).foldl (fetchInto pre svc) env) =
      lookupEnv K env := by
  induction pending generalizing env with
  | nil => rfl
  | cons m rest ih =>
    have hm : K ≠ m := fun e => hK (by simp [e])
    have hrest : K ∉ rest := fun hmem => hK (List.mem_cons_of_mem _ hmem)
    rw [List.map_cons, List.foldl_cons, ih _ hrest]
    exact fetchInto_lookupEnv_ne pre m svc env hsvc hm

theorem lookupEnv_of_mem {env : Environment} (hnd : (env.map Prod.fst).Nodup) {K v : Str}
    (h : (K, v) ∈ env) : lookupEnv K env = some v := by
  induction env with
  | nil => simp at h
  | cons kv rest ih =>
    obtain ⟨k, w⟩ := kv
    simp only [List.map_cons, List.nodup_cons] at hnd
    rcases List.mem_cons.mp h with e | hmem
    · cases e
      simp [lookupEnv]
    · have hne : ¬ k = K := by
        intro e
        subst e
        exact hnd.1 (List.mem_map_of_mem Prod.fst hmem)
      simp only [lookupEnv, hne, if_false]
      exact ih hnd.2 hmem

theorem mem_pendingNames {env : Environment} {K : Str} :
    K ∈ pendingNames env ↔ (K, []) ∈ env := by
  simp only [pendingNames, List.mem_map, List.mem_filter, decide_eq_true_eq]
  constructor
  · rintro ⟨⟨k, v⟩, ⟨hmem, hv⟩, hk⟩
    simp only at hv hk
    subst hv hk
    exact hmem
  · intro h
    exact ⟨(K, []), ⟨h, rfl⟩, rfl⟩

theorem mem_of_lookupEnv {env : Environment} {K v : Str} (h : lookupEnv K env = some v) :
    (K, v) ∈ env := by
  induction env with
  | nil => simp [lookupEnv] at h
  | cons kv rest ih =>
    obtain ⟨k, w⟩ := kv
    by_cases hk : k = K
    · simp only [lookupEnv, hk, if_true, Option.some.injEq] at h
      simp [hk, h]
    · simp only [lookupEnv, hk, if_false] at h
      exact List.mem_cons_of_mem _ (ih h)

theorem fetchInto_error (pre : Str) (svc : GetParametersInput → Answer GetParametersOutput)
    (env : Environment) {n e : Str} (h : svc (nameRequest n) = .error e) :
    fetchInto pre svc env n = env := by
  simp [fetchInto, h]

/-- When the turn for `pre ++ n` keeps the value `t` of `n`, so does the whole loop. -/
theorem foldl_fetchInto_preserve (pre : Str)
    (svc : GetParametersInput → Answer GetParametersOutput) (pending : List Str)
    (env : Environment) {n t : Str} (hsvc : answersRequestedNames svc)
    (hstep : ∀ e, Getenv e n = t → Getenv (fetchInto pre svc e (pre ++ n)) n = t)
    (h0 : Getenv env n = t) :
    Getenv ((pending.map (fun m => pre ++ m)).foldl (fetchInto pre svc) env) n = t := by
  induction pending generalizing env with
  | nil => exact h0
  | cons m rest ih =>
    rw [List.map_cons, List.foldl_cons]
    apply ih
    by_cases hm : m = n
    · subst hm
      exact hstep env h0
    · rw [Getenv_of_lookupEnv_eq
        (fetchInto_lookupEnv_ne pre m svc env hsvc (fun e => hm e.symm)), h0]

/-- When the turn for `pre ++ n` gives `n` the value `t`, so does the whole loop. -/
theorem foldl_fetchInto_establish (pre : Str)
    (svc : GetParametersInput → Answer GetParametersOutput) (pending : List Str)
    (env : Environment) {n t : Str} (hsvc : answersRequestedNames svc)
    (hstep : ∀ e, Getenv (fetchInto pre svc e (pre ++ n)) n = t)
    (hn : n ∈ pending) :
    Getenv ((pending.map (fun m => pre ++ m)).foldl (fetchInto pre svc) env) n = t := by
  induction pending generalizing env with
  | nil => simp at hn
  | cons m rest ih =>
    rw [List.map_cons, List.foldl_cons]
    by_cases hm : m = n
    · subst hm
      exact foldl_fetchInto_preserve pre svc rest _ hsvc (fun e _ => hstep e) (hstep env)
    · rcases List.mem_cons.mp hn with e | hmem
      · exact absurd e.symm hm
      · exact ih _ hmem

theorem injectEnvironByPrefix_eq (env : Environment)
    (svc : GetParametersInput → Answer GetParametersOutput)
    (hwf : ∀ kv ∈ env, '=' ∉ kv.1) (hpre : Getenv env ENV_INJECTOR_PREFIX ≠ []) :
    injectEnvironByPrefix env svc =
      { env := ((pendingNames env).map
            (fun n => normalizePrefix (Getenv env ENV_INJECTOR_PREFIX) ++ n)).foldl
          (fetchInto (normalizePrefix (Getenv env ENV_INJECTOR_PREFIX)) svc) env,
        requests := ((pendingNames env).map
            (fun n => normalizePrefix (Getenv env ENV_INJECTOR_PREFIX) ++ n)).map
          nameRequest } := by
  simp only [injectEnvironByPrefix, hpre, if_false, collectNames_eq _ env hwf, injectNames_eq]
  split
  · rename_i h
    have h2 := List.length_eq_zero.mp h
    rw [h2]
    rfl
  · rfl

theorem injectEnvironByPrefix_disabled (env : Environment)
    (svc : GetParametersInput → Answer GetParametersOutput)
    (hpre : Getenv env ENV_INJECTOR_PREFIX = []) :
    injectEnvironByPrefix env svc = { env := env, requests := [] } := by
  simp [injectEnvironByPrefix, hpre]

/-- When the turn for `pre ++ n` keeps the binding of `n`, so does the whole loop. -/
theorem foldl_fetchInto_lookupEnv_keep (pre : Str)
    (svc : GetParametersInput → Answer GetParametersOutput) (pending : List Str)
    (env : Environment) {n : Str} (hsvc : answersRequestedNames svc)
    (hstep : ∀ e, lookupEnv n (fetchInto pre svc e (pre ++ n)) = lookupEnv n e) :
    lookupEnv n ((pending.map (fun m => pre ++ m)).foldl (fetchInto pre svc) env) =
      lookupEnv n env := by
  induction pending generalizing env with
  | nil => rfl
  | cons m rest ih =>
    rw [List.map_cons, List.foldl_cons, ih]
    by_cases hm : m = n
    · subst hm
      exact hstep env
    · exact fetchInto_lookupEnv_ne pre m svc env hsvc (fun e => hm e.symm)

/-- A name whose fetch fails can be left out of the loop over the names. -/
theorem foldl_fetchInto_filter (pre : Str)
    (svc : GetParametersInput → Answer GetParametersOutput) (names : List Str)
    (env : Environment) {x e : Str} (h : svc (nameRequest x) = .error e) :
    names.foldl (fetchInto pre svc) env =
      (names.filter (fun y => decide (y ≠ x))).foldl (fetchInto pre svc) env := by
  induction names generalizing env with
  | nil => rfl
  | cons y rest ih =>
    by_cases hy : y = x
    · subst hy
      rw [List.foldl_cons, fetchInto_error pre svc env h, ih]
      simp
    · rw [List.filter_cons_of_pos (by simpa using hy), List.foldl_cons, List.foldl_cons, ih]

theorem injectEnvironByPrefix_env (env : Environment)
    (svc : GetParametersInput → Answer GetParametersOutput)
    (hpre : Getenv env ENV_INJECTOR_PREFIX ≠ []) :
    (injectEnvironByPrefix env svc).env =
      (injectNames (normalizePrefix (Getenv env ENV_INJECTOR_PREFIX)) svc env
        (collectNames (normalizePrefix (Getenv env ENV_INJECTOR_PREFIX)) (Environ env))).env := by
  simp only [injectEnvironByPrefix, hpre, if_false]
  split
  · rename_i h
    rw [List.length_eq_zero.mp h]
    rfl
  · rfl

/-- The turn for `pre ++ m` when the store answers with one parameter that os.Setenv
accepts: `m` gets its value. -/
theorem fetchInto_single (pre : Str) (svc : GetParametersInput → Answer GetParametersOutput)
    (env : Environment) {m : Str} {result : GetParametersOutput} {param : Parameter}
    (hsvc : answersRequestedNames svc)
    (hr : svc (nameRequest (pre ++ m)) = .ok result) (hone : result.Parameters = [param])
    (hkey : validKey m = true) (hv : validValue (StringValue param.Value) = true) :
    Getenv (fetchInto pre svc env (pre ++ m)) m = StringValue param.Value := by
  have hname := hsvc _ _ hr param (by simp [hone])
  simp only [nameRequest, List.mem_singleton] at hname
  simp only [fetchInto, hr, hone, List.foldl_cons, List.foldl_nil, injectFetched, hname,
    TrimPrefix_append]
  rw [setenvIgnoringError_valid env hkey hv]
  exact Getenv_setBinding_self _ env (validKey_ne_nil hkey)

theorem failingStore_answersRequestedNames : answersRequestedNames failingStore := by
  intro request result h param hparam
  unfold failingStore at h
  split at h
  · cases h
  · split at h
    · rename_i hnames
      cases h
      simp only [List.mem_singleton] at hparam
      subst hparam
      rw [hnames]
      decide
    · cases h
      simp at hparam

theorem scenarioPrefixStore_answersRequestedNames :
    answersRequestedNames scenarioPrefixStore := by
  intro request result h param hparam
  unfold scenarioPrefixStore at h
  split at h
  · rename_i hnames
    cases h
    simp only [List.mem_singleton] at hparam
    subst hparam
    rw [hnames]
    decide
  · cases h
    simp at hparam

/-! ## The claims -/

/-- C1. Path Injector never overwrites: whatever the environment (and so whatever
path it names) and whatever the store answers, a variable whose value is non-empty
before `injectEnvironByPath` runs has the same value after the run. -/
theorem path_injector_never_overwrites (env : Environment)
    (answers : List (Answer GetParametersByPathOutput)) (K : Str)
    (h : Getenv env K ≠ []) :
    Getenv (injectEnvironByPath env answers).env K = Getenv env K := by
  unfold injectEnvironByPath injectEnvironByPathWith
  simp only []
  split
  · rfl
  · exact pathLoop_keeps Rel _ answers none env [] h

/-- The path scenario of the specification: `DB_PORT` keeps `already-set` and
`DB_HOST` is injected. -/
theorem path_injector_never_overwrites_witness :
    Getenv scenarioPathEnv "DB_PORT".toList ≠ [] ∧
      Getenv (injectEnvironByPath scenarioPathEnv scenarioPathAnswers).env "DB_PORT".toList =
        Getenv scenarioPathEnv "DB_PORT".toList :=
  ⟨by decide, path_injector_never_overwrites scenarioPathEnv scenarioPathAnswers _ (by decide)⟩

/-- C2, as stated, fails: when two returned parameters relativize to the same key `A`,
unset beforehand, the value of the second one is not the final value of `A`. -/
theorem path_injector_injects_counterexample :
    ∃ param ∈ allParameters [repeatedKeyPage1, repeatedKeyPage2],
      Rel (Getenv pathOnlyEnv ENV_INJECTOR_PATH) (StringValue param.Name) = .ok "A".toList ∧
      Getenv pathOnlyEnv "A".toList = [] ∧
      (injectEnvironByPath pathOnlyEnv [.ok repeatedKeyPage1, .ok repeatedKeyPage2]).status =
        .returned ∧
      Getenv (injectEnvironByPath pathOnlyEnv
        [.ok repeatedKeyPage1, .ok repeatedKeyPage2]).env "A".toList ≠
        StringValue param.Value :=
  ⟨{ Name := some "/app/prod/A".toList, Value := some "2".toList }, by decide, by decide,
    by decide, by decide, by decide⟩

/-- C2, amended. Stated for every relativization function `rel` in the place of
filepath.Rel, so whatever the Go release. For pages `pages ++ [last]` returned in a
run (all but the last with a non-empty token) and a returned parameter with value `v`
whose key `K` is unset or empty beforehand: `K` has the value `v` after the run when
no parameter returned before it gives `K` a non-empty value (key `K`, non-empty value,
both accepted by os.Setenv), and either `v` is non-empty and os.Setenv accepts `K`
and `v`, or `v` is empty and no parameter returned after it gives `K` a non-empty
value. In general `K` has the value `v` after the
run exactly when `v` is the value of the first returned parameter that gives `K` a
non-empty value, or `v` is empty and there is no such parameter. -/
theorem path_injector_injects_first (rel : Relativize) (env : Environment)
    (pages : List GetParametersByPathOutput) (last : GetParametersByPathOutput)
    (rest : List (Answer GetParametersByPathOutput))
    (before after : List Parameter) (param : Parameter) (K : Str)
    (hpath : Getenv env ENV_INJECTOR_PATH ≠ [])
    (hmid : ∀ page ∈ pages, page.NextToken ≠ none ∧ StringValue page.NextToken ≠ [])
    (hlast : last.NextToken = none ∨ StringValue last.NextToken = [])
    (hsplit : allParameters (pages ++ [last]) = before ++ param :: after)
    (hkey : rel (Getenv env ENV_INJECTOR_PATH) (StringValue param.Name) = .ok K)
    (h0 : Getenv env K = []) :
    ((∀ q ∈ before, settles rel (Getenv env ENV_INJECTOR_PATH) K q = false) →
        ((StringValue param.Value ≠ [] ∧ validKey K = true ∧
            validValue (StringValue param.Value) = true) ∨
          (StringValue param.Value = [] ∧
            ∀ q ∈ after, settles rel (Getenv env ENV_INJECTOR_PATH) K q = false)) →
        Getenv (injectEnvironByPathWith rel env
          ((pages ++ [last]).map Except.ok ++ rest)).env K = StringValue param.Value) ∧
      (Getenv (injectEnvironByPathWith rel env
          ((pages ++ [last]).map Except.ok ++ rest)).env K = StringValue param.Value ↔
        match (allParameters (pages ++ [last])).find?
            (settles rel (Getenv env ENV_INJECTOR_PATH) K) with
        | some q => StringValue q.Value = StringValue param.Value
        | none => StringValue param.Value = []) := by
  have hfinal : Getenv (injectEnvironByPathWith rel env
      ((pages ++ [last]).map Except.ok ++ rest)).env K =
      match (allParameters (pages ++ [last])).find?
          (settles rel (Getenv env ENV_INJECTOR_PATH) K) with
      | some q => StringValue q.Value
      | none => [] := by
    simp only [injectEnvironByPathWith, hpath, if_false]
    rw [pathLoop_paged rel _ pages last rest env hmid hlast]
    exact foldl_injectParam_first rel _ _ env h0
  refine ⟨?_, ?_⟩
  · intro hbefore hself
    rw [hfinal, hsplit, List.find?_append]
    have hb : before.find? (settles rel (Getenv env ENV_INJECTOR_PATH) K) = none := by
      rw [List.find?_eq_none]
      intro q hq
      simp [hbefore q hq]
    rw [hb]
    rcases hself with ⟨hne, hK, hval⟩ | ⟨hv, hafter⟩
    · have hs : settles rel (Getenv env ENV_INJECTOR_PATH) K param = true := by
        simp [settles, hkey, hne, hK, hval]
      simp [List.find?_cons_of_pos _ hs]
    · have hs : settles rel (Getenv env ENV_INJECTOR_PATH) K param = false := by
        simp [settles, hv]
      have ha : after.find? (settles rel (Getenv env ENV_INJECTOR_PATH) K) = none := by
        rw [List.find?_eq_none]
        intro q hq
        simp [hafter q hq]
      have hneg : ¬ settles rel (Getenv env ENV_INJECTOR_PATH) K param = true := by
        rw [hs]; simp
      rw [List.find?_cons_of_neg _ hneg, ha, hv]
      rfl
  · rw [hfinal]
    cases (allParameters (pages ++ [last])).find?
        (settles rel (Getenv env ENV_INJECTOR_PATH) K) with
    | none => exact ⟨fun h => h.symm, fun h => h.symm⟩
    | some q => exact Iff.rfl

/-- The repeated key: `/app/prod/A` is returned with the value `1` and then with the
value `2`; the first of the two parameters gives `A` its value. -/
theorem path_injector_injects_first_witness :
    Getenv pathOnlyEnv ENV_INJECTOR_PATH ≠ [] ∧ Getenv pathOnlyEnv "A".toList = [] ∧
      Getenv (injectEnvironByPath pathOnlyEnv
        (([repeatedKeyPage1] ++ [repeatedKeyPage2]).map Except.ok ++ [])).env "A".toList =
        "1".toList :=
  ⟨by decide, by decide,
    (path_injector_injects_first Rel pathOnlyEnv [repeatedKeyPage1] repeatedKeyPage2 []
      [] [{ Name := some "/app/prod/A".toList, Value := some "2".toList }]
      { Name := some "/app/prod/A".toList, Value := some "1".toList }
      "A".toList (by decide) (by decide) (by decide) (by decide) (by decide)
      (by decide)).1 (by decide) (Or.inl ⟨by decide, by decide, by decide⟩)⟩

/-- C3. Pagination: when the store answers with pages `pages ++ [last]`, every page
of `pages` carrying a non-empty token and `last` an absent or empty one, the run
returns after exactly one request per page: the first without token, each next one
with the token of the page before; the parameters of the pages are processed once
each, in page order; whatever answers would follow `last` are never asked for. -/
theorem pagination_consumes_pages_in_order (env : Environment)
    (pages : List GetParametersByPathOutput) (last : GetParametersByPathOutput)
    (rest : List (Answer GetParametersByPathOutput))
    (hpath : Getenv env ENV_INJECTOR_PATH ≠ [])
    (hmid : ∀ page ∈ pages, page.NextToken ≠ none ∧ StringValue page.NextToken ≠ [])
    (hlast : last.NextToken = none ∨ StringValue last.NextToken = []) :
    injectEnvironByPath env ((pages ++ [last]).map Except.ok ++ rest) =
        { env := (allParameters (pages ++ [last])).foldl
            (injectParam (Getenv env ENV_INJECTOR_PATH)) env,
          requests := (none :: pages.map (fun page => page.NextToken)).map
            (pathRequest (Getenv env ENV_INJECTOR_PATH)),
          status := .returned } ∧
      (injectEnvironByPath env ((pages ++ [last]).map Except.ok ++ rest)).requests.length =
        (pages ++ [last]).length := by
  have e : injectEnvironByPath env ((pages ++ [last]).map Except.ok ++ rest) =
      { env := (allParameters (pages ++ [last])).foldl
          (injectParam (Getenv env ENV_INJECTOR_PATH)) env,
        requests := (none :: pages.map (fun page => page.NextToken)).map
          (pathRequest (Getenv env ENV_INJECTOR_PATH)),
        status := .returned } := by
    simp only [injectEnvironByPath, injectEnvironByPathWith, hpath, if_false]
    exact pathLoop_paged Rel _ pages last rest env hmid hlast
  refine ⟨e, ?_⟩
  rw [e]
  simp

/-- The two pages of the path scenario, followed by an answer that is never used. -/
theorem pagination_consumes_pages_in_order_witness :
    injectEnvironByPath scenarioPathEnv
        (([scenarioPage1] ++ [scenarioPage2]).map Except.ok ++ [.error "unused".toList]) =
        { env := (allParameters ([scenarioPage1] ++ [scenarioPage2])).foldl
            (injectParam (Getenv scenarioPathEnv ENV_INJECTOR_PATH)) scenarioPathEnv,
          requests := (none :: [scenarioPage1].map (fun page => page.NextToken)).map
            (pathRequest (Getenv scenarioPathEnv ENV_INJECTOR_PATH)),
          status := .returned } ∧
      (injectEnvironByPath scenarioPathEnv
        (([scenarioPage1] ++ [scenarioPage2]).map Except.ok ++
          [.error "unused".toList])).requests.length =
        ([scenarioPage1] ++ [scenarioPage2]).length :=
  pagination_consumes_pages_in_order scenarioPathEnv [scenarioPage1] scenarioPage2
    [.error "unused".toList] (by decide) (by decide) (by decide)

/-- C4, as stated, fails: the store answers the request for `secrets.API_KEY` with
that parameter, no error and no invalid name, and `API_KEY` is still empty after the
run, because the value holds a NUL byte, os.Setenv refuses it and its error is
discarded. -/
theorem prefix_injector_outcome_counterexample :
    lookupEnv "API_KEY".toList scenarioPrefixEnv = some [] ∧
      nulValueStore (nameRequest "secrets.API_KEY".toList) =
        .ok { Parameters := [{ Name := some "secrets.API_KEY".toList, Value := some [NUL] }],
              InvalidParameters := [] } ∧
      Getenv (injectEnvironByPrefix scenarioPrefixEnv nulValueStore).env "API_KEY".toList = [] ∧
      Getenv (injectEnvironByPrefix scenarioPrefixEnv nulValueStore).env "API_KEY".toList ≠
        [NUL] := by
  decide

/-- C4, amended. In a well-formed environment that names a non-empty prefix, against
a store that returns only parameters carrying the requested name, for every variable
`n` that os.Setenv accepts as a name and whose value is the empty string before
`injectEnvironByPrefix` runs: `n` is still empty after the run when the fetch of
prefix + `n` failed or returned no parameter, and `n` holds the fetched value when
the fetch returned one parameter whose value holds no NUL byte. -/
theorem prefix_injector_outcome (env : Environment)
    (svc : GetParametersInput → Answer GetParametersOutput) (n : Str)
    (hwf : wellFormed env) (hpre : Getenv env ENV_INJECTOR_PREFIX ≠ [])
    (hsvc : answersRequestedNames svc)
    (hn : lookupEnv n env = some []) (hkey : validKey n = true) :
    (∀ e, svc (nameRequest (normalizePrefix (Getenv env ENV_INJECTOR_PREFIX) ++ n)) = .error e →
        Getenv (injectEnvironByPrefix env svc).env n = []) ∧
      (∀ result,
        svc (nameRequest (normalizePrefix (Getenv env ENV_INJECTOR_PREFIX) ++ n)) = .ok result →
        result.Parameters = [] → Getenv (injectEnvironByPrefix env svc).env n = []) ∧
      (∀ result param,
        svc (nameRequest (normalizePrefix (Getenv env ENV_INJECTOR_PREFIX) ++ n)) = .ok result →
        result.Parameters = [param] → validValue (StringValue param.Value) = true →
        Getenv (injectEnvironByPrefix env svc).env n = StringValue param.Value) := by
  have h0 : Getenv env n = [] := by simp [Getenv, hn]
  have hmem : n ∈ pendingNames env := mem_pendingNames.mpr (mem_of_lookupEnv hn)
  rw [injectEnvironByPrefix_eq env svc hwf.1 hpre]
  simp only []
  refine ⟨?_, ?_, ?_⟩
  · intro e he
    apply foldl_fetchInto_preserve _ svc _ env hsvc _ h0
    intro env1 h1
    rw [fetchInto_error _ svc env1 he, h1]
  · intro result hr hnil
    apply foldl_fetchInto_preserve _ svc _ env hsvc _ h0
    intro env1 h1
    simp [fetchInto, hr, hnil, h1]
  · intro result param hr hone hv
    apply foldl_fetchInto_establish _ svc _ env hsvc _ hmem
    intro env1
    have hname := hsvc _ _ hr param (by simp [hone])
    simp only [nameRequest, List.mem_singleton] at hname
    simp only [fetchInto, hr, hone, List.foldl_cons, List.foldl_nil, injectFetched, hname,
      TrimPrefix_append]
    rw [setenvIgnoringError_valid env1 hkey hv]
    exact Getenv_setBinding_self _ env1 (validKey_ne_nil hkey)

/-- The prefix scenario of the specification: `API_KEY` is empty, the store holds
`secrets.API_KEY = xyz`, and `API_KEY` is `xyz` after the run. -/
theorem prefix_injector_outcome_witness :
    wellFormed scenarioPrefixEnv ∧ Getenv scenarioPrefixEnv ENV_INJECTOR_PREFIX ≠ [] ∧
      answersRequestedNames scenarioPrefixStore ∧
      lookupEnv "API_KEY".toList scenarioPrefixEnv = some [] ∧
      validKey "API_KEY".toList = true ∧
      Getenv (injectEnvironByPrefix scenarioPrefixEnv scenarioPrefixStore).env
        "API_KEY".toList = "xyz".toList :=
  ⟨by decide, by decide, scenarioPrefixStore_answersRequestedNames, by decide, by decide,
    (prefix_injector_outcome scenarioPrefixEnv scenarioPrefixStore "API_KEY".toList
      (by decide) (by decide) scenarioPrefixStore_answersRequestedNames
      (by decide) (by decide)).2.2
      { Parameters := [{ Name := some "secrets.API_KEY".toList, Value := some "xyz".toList }],
        InvalidParameters := [] }
      { Name := some "secrets.API_KEY".toList, Value := some "xyz".toList }
      (by decide) rfl (by decide)⟩

/-- C5, as stated, fails: `/app/other/X` does not fall under `/app/prod`, yet
filepath.Rel relates it to the path as `../other/X` without an error (just as it
relates `/b/c` to `/a` as `../b/c`), and the parameter is injected under that key. -/
theorem relativization_guard_counterexample :
    Rel "/a".toList "/b/c".toList = .ok "../b/c".toList ∧
      ("/app/prod/".toList).isPrefixOf (StringValue outsideParam.Name) = false ∧
      Rel (Getenv pathOnlyEnv ENV_INJECTOR_PATH) (StringValue outsideParam.Name) =
        .ok "../other/X".toList ∧
      (injectEnvironByPath pathOnlyEnv
          [.ok { Parameters := [outsideParam], NextToken := none }]).env =
        pathOnlyEnv ++ [("../other/X".toList, "v".toList)] := by
  decide

/-- C5, amended. Relativization fails, and the parameter is skipped, when exactly one
of the path and the full name of the parameter begins with the separator: processing
it leaves the environment as it is, and the parameters before and after it on the
page are processed as if it had not been returned. When both begin with the
separator, relativization does not fail and the parameter is not skipped, also when
its name does not fall under the path: it is injected, if its key is unset or empty,
under the key filepath.Rel computes. So for a path that begins with the separator
the skipped parameters are exactly those whose name does not. -/
theorem relativization_guard (path : Str) (env : Environment)
    (before after : List Parameter) (param : Parameter) :
    (((path.head? = some '/' ∧ (StringValue param.Name).head? ≠ some '/') ∨
          (path.head? ≠ some '/' ∧ (StringValue param.Name).head? = some '/')) →
        (∃ e, Rel path (StringValue param.Name) = .error e) ∧
          injectParam path env param = env ∧
          (before ++ param :: after).foldl (injectParam path) env =
            (before ++ after).foldl (injectParam path) env) ∧
      ((path.head? = some '/' ∧ (StringValue param.Name).head? = some '/') →
        ∃ key, Rel path (StringValue param.Name) = .ok key ∧
          injectParam path env param =
            if Getenv env key = [] then setenvIgnoringError env key (StringValue param.Value)
            else env) := by
  refine ⟨?_, ?_⟩
  · intro hmis
    obtain ⟨e, he⟩ := Rel_error_of_mismatch path (StringValue param.Name) hmis
    have h1 : ∀ env1, injectParam path env1 param = env1 := by
      intro env1
      simp [injectParam, injectParamWith, he]
    refine ⟨⟨e, he⟩, h1 env, ?_⟩
    rw [List.foldl_append, List.foldl_cons, h1, List.foldl_append]
  · intro hboth
    obtain ⟨key, hk⟩ := Rel_ok_of_rooted path (StringValue param.Name) hboth.1 hboth.2
    exact ⟨key, hk, by simp [injectParam, injectParamWith, hk]⟩

/-- For the path `/app/prod`: the parameter named `app/x`, placed between the two
parameters of the path scenario, is skipped; the parameter named `/app/other/X` is
not, and is injected under the key `../other/X`. -/
theorem relativization_guard_witness :
    ((∃ e, Rel "/app/prod".toList (StringValue relativeParam.Name) = .error e) ∧
        injectParam "/app/prod".toList scenarioPathEnv relativeParam = scenarioPathEnv ∧
        (scenarioPage1.Parameters ++ relativeParam :: scenarioPage2.Parameters).foldl
            (injectParam "/app/prod".toList) scenarioPathEnv =
          (scenarioPage1.Parameters ++ scenarioPage2.Parameters).foldl
            (injectParam "/app/prod".toList) scenarioPathEnv) ∧
      (∃ key, Rel "/app/prod".toList (StringValue outsideParam.Name) = .ok key ∧
        injectParam "/app/prod".toList scenarioPathEnv outsideParam =
          if Getenv scenarioPathEnv key = []
            then setenvIgnoringError scenarioPathEnv key (StringValue outsideParam.Value)
            else scenarioPathEnv) ∧
      injectParam "/app/prod".toList scenarioPathEnv outsideParam =
        scenarioPathEnv ++ [("../other/X".toList, "v".toList)] :=
  ⟨(relativization_guard "/app/prod".toList scenarioPathEnv scenarioPage1.Parameters
      scenarioPage2.Parameters relativeParam).1 (Or.inl ⟨by decide, by decide⟩),
    (relativization_guard "/app/prod".toList scenarioPathEnv [] [] outsideParam).2
      ⟨by decide, by decide⟩,
    by decide⟩

/-- C6, as stated, fails: with the marker `API_KEY:1` empty, the store answers the
request for `secrets.API_KEY:1` with the parameter `secrets.API_KEY`, and the
variable `API_KEY`, which held the non-empty value `old`, is overwritten. -/
theorem prefix_injector_frame_counterexample :
    Getenv selectorEnv "API_KEY".toList = "old".toList ∧
      (injectEnvironByPrefix selectorEnv selectorStore).requests =
        [nameRequest "secrets.API_KEY:1".toList] ∧
      Getenv (injectEnvironByPrefix selectorEnv selectorStore).env "API_KEY".toList =
        "new".toList := by
  decide

/-- C6, amended. In a well-formed environment, against a store that returns only
parameters carrying the requested name, every variable whose binding after
`injectEnvironByPrefix` differs from its binding before (a variable bound only after
the run included) was bound to the empty string before the run. -/
theorem prefix_injector_only_overwrites_markers (env : Environment)
    (svc : GetParametersInput → Answer GetParametersOutput) (K : Str)
    (hwf : wellFormed env) (hsvc : answersRequestedNames svc)
    (hchanged : lookupEnv K (injectEnvironByPrefix env svc).env ≠ lookupEnv K env) :
    lookupEnv K env = some [] := by
  by_cases hpre : Getenv env ENV_INJECTOR_PREFIX = []
  · rw [injectEnvironByPrefix_disabled env svc hpre] at hchanged
    exact absurd rfl hchanged
  · rw [injectEnvironByPrefix_eq env svc hwf.1 hpre] at hchanged
    simp only [] at hchanged
    by_cases hK : K ∈ pendingNames env
    · exact lookupEnv_of_mem hwf.2 (mem_pendingNames.mp hK)
    · exact absurd (foldl_fetchInto_lookupEnv _ svc (pendingNames env) env hsvc hK) hchanged

/-- The prefix scenario: the binding of `API_KEY` changes, and it was empty before. -/
theorem prefix_injector_only_overwrites_markers_witness :
    wellFormed scenarioPrefixEnv ∧ answersRequestedNames scenarioPrefixStore ∧
      lookupEnv "API_KEY".toList (injectEnvironByPrefix scenarioPrefixEnv scenarioPrefixStore).env ≠
        lookupEnv "API_KEY".toList scenarioPrefixEnv ∧
      lookupEnv "API_KEY".toList scenarioPrefixEnv = some [] :=
  ⟨by decide, scenarioPrefixStore_answersRequestedNames, by decide,
    prefix_injector_only_overwrites_markers scenarioPrefixEnv scenarioPrefixStore
      "API_KEY".toList (by decide) scenarioPrefixStore_answersRequestedNames (by decide)⟩

/-- C7, as stated, fails: with the markers `A` and `B`, the store answers the request
for `secrets.A` with the parameter `secrets.B` and the fetch of `secrets.B` fails;
`B` is no longer empty after the run although its own fetch returned an error. -/
theorem prefix_injector_failure_isolation_counterexample :
    lookupEnv "B".toList twoMarkersEnv = some [] ∧
      crossStore (nameRequest "secrets.B".toList) = .error "transport error".toList ∧
      (injectEnvironByPrefix twoMarkersEnv crossStore).requests =
        [nameRequest "secrets.A".toList, nameRequest "secrets.B".toList] ∧
      Getenv (injectEnvironByPrefix twoMarkersEnv crossStore).env "B".toList =
        "fromA".toList := by
  decide

/-- C7, amended. In a well-formed environment that names a non-empty prefix, against
a store that returns only parameters carrying the requested name, when the fetch for
a pending (empty-valued) name `n` returns an error: the binding of `n` after
`injectEnvironByPrefix` is the one before (the empty string); the requests for all
the pending names, the later ones included, are sent; every other pending name whose
fetch returns one parameter with a value os.Setenv accepts has that value after the
run; and the final environment is the one the loop over the names reaches when the
failing name is left out of them. -/
theorem prefix_injector_failure_isolation (env : Environment)
    (svc : GetParametersInput → Answer GetParametersOutput) (n e : Str)
    (hwf : wellFormed env) (hpre : Getenv env ENV_INJECTOR_PREFIX ≠ [])
    (hsvc : answersRequestedNames svc)
    (hn : lookupEnv n env = some [])
    (herr : svc (nameRequest (normalizePrefix (Getenv env ENV_INJECTOR_PREFIX) ++ n)) =
      .error e) :
    lookupEnv n (injectEnvironByPrefix env svc).env = some [] ∧
      (injectEnvironByPrefix env svc).requests =
        (pendingNames env).map
          (fun m => nameRequest (normalizePrefix (Getenv env ENV_INJECTOR_PREFIX) ++ m)) ∧
      (∀ m result param, lookupEnv m env = some [] → validKey m = true →
        svc (nameRequest (normalizePrefix (Getenv env ENV_INJECTOR_PREFIX) ++ m)) =
          .ok result →
        result.Parameters = [param] → validValue (StringValue param.Value) = true →
        Getenv (injectEnvironByPrefix env svc).env m = StringValue param.Value) ∧
      (injectEnvironByPrefix env svc).env =
        (injectNames (normalizePrefix (Getenv env ENV_INJECTOR_PREFIX)) svc env
          ((collectNames (normalizePrefix (Getenv env ENV_INJECTOR_PREFIX))
            (Environ env)).filter
            (fun x => decide
              (x ≠ normalizePrefix (Getenv env ENV_INJECTOR_PREFIX) ++ n)))).env := by
  refine ⟨?_, ?_, ?_, ?_⟩
  · rw [injectEnvironByPrefix_eq env svc hwf.1 hpre]
    simp only []
    rw [foldl_fetchInto_lookupEnv_keep _ svc _ env hsvc, hn]
    intro env1
    rw [fetchInto_error _ svc env1 herr]
  · rw [injectEnvironByPrefix_eq env svc hwf.1 hpre]
    simp [List.map_map, Function.comp_def]
  · intro m result param hm hkey hr hone hv
    rw [injectEnvironByPrefix_eq env svc hwf.1 hpre]
    simp only []
    apply foldl_fetchInto_establish _ svc _ env hsvc _
      (mem_pendingNames.mpr (mem_of_lookupEnv hm))
    intro env1
    exact fetchInto_single _ svc env1 hsvc hr hone hkey hv
  · rw [injectEnvironByPrefix_env env svc hpre, injectNames_eq, injectNames_eq]
    simp only []
    exact foldl_fetchInto_filter _ svc _ env herr

/-- Two pending names, `A` and `B`: the fetch of `secrets.A` fails, `A` stays empty,
`secrets.B` is still requested and `B` is injected. -/
theorem prefix_injector_failure_isolation_witness :
    wellFormed twoMarkersEnv ∧ Getenv twoMarkersEnv ENV_INJECTOR_PREFIX ≠ [] ∧
      answersRequestedNames failingStore ∧
      lookupEnv "A".toList twoMarkersEnv = some [] ∧
      failingStore (nameRequest (normalizePrefix (Getenv twoMarkersEnv ENV_INJECTOR_PREFIX) ++
        "A".toList)) = .error "transport error".toList ∧
      lookupEnv "A".toList (injectEnvironByPrefix twoMarkersEnv failingStore).env = some [] ∧
      (injectEnvironByPrefix twoMarkersEnv failingStore).requests =
        [nameRequest "secrets.A".toList, nameRequest "secrets.B".toList] ∧
      Getenv (injectEnvironByPrefix twoMarkersEnv failingStore).env "B".toList =
        "b".toList :=
  ⟨by decide, by decide, failingStore_answersRequestedNames, by decide, by decide,
    (prefix_injector_failure_isolation twoMarkersEnv failingStore "A".toList
      "transport error".toList (by decide) (by decide) failingStore_answersRequestedNames
      (by decide) (by decide)).1,
    by decide, by decide⟩

/-- C8. The requests of Prefix Injector: in a well-formed environment that names a
non-empty prefix, `injectEnvironByPrefix` sends one request per variable bound to
the empty string, in environment order, each for the single name made of the prefix
(followed by `.` unless it already ends with one) and the name of the variable;
variables with a non-empty value produce no request, and when no variable is empty
no request is sent and the environment is unchanged. -/
theorem prefix_injector_requests (env : Environment)
    (svc : GetParametersInput → Answer GetParametersOutput)
    (hwf : wellFormed env) (hpre : Getenv env ENV_INJECTOR_PREFIX ≠ []) :
    (injectEnvironByPrefix env svc).requests =
        (env.filter (fun kv => kv.2 = [])).map (fun kv =>
          { Names :=
              [(if (Getenv env ENV_INJECTOR_PREFIX).getLast? = some '.'
                  then Getenv env ENV_INJECTOR_PREFIX
                  else Getenv env ENV_INJECTOR_PREFIX ++ ['.']) ++ kv.1],
            WithDecryption := true }) ∧
      ((∀ kv ∈ env, kv.2 ≠ []) →
        injectEnvironByPrefix env svc = { env := env, requests := [] }) := by
  have hnorm : normalizePrefix (Getenv env ENV_INJECTOR_PREFIX) =
      (if (Getenv env ENV_INJECTOR_PREFIX).getLast? = some '.'
        then Getenv env ENV_INJECTOR_PREFIX
        else Getenv env ENV_INJECTOR_PREFIX ++ ['.']) := by
    unfold normalizePrefix HasSuffix
    by_cases hl : (Getenv env ENV_INJECTOR_PREFIX).getLast? = some '.'
    · simp [hl]
    · simp [hl]
  rw [injectEnvironByPrefix_eq env svc hwf.1 hpre, hnorm]
  refine ⟨?_, ?_⟩
  · simp [pendingNames, nameRequest, List.map_map, Function.comp_def]
  · intro hall
    have hnone : pendingNames env = [] := by
      unfold pendingNames
      rw [List.map_eq_nil_iff, List.filter_eq_nil_iff]
      intro kv hkv
      simpa using hall kv hkv
    rw [hnone]
    rfl

/-- The prefix scenario: one request, for `secrets.API_KEY`. -/
theorem prefix_injector_requests_witness :
    wellFormed scenarioPrefixEnv ∧ Getenv scenarioPrefixEnv ENV_INJECTOR_PREFIX ≠ [] ∧
      (injectEnvironByPrefix scenarioPrefixEnv scenarioPrefixStore).requests =
        [{ Names := ["secrets.API_KEY".toList], WithDecryption := true }] :=
  ⟨by decide, by decide,
    (prefix_injector_requests scenarioPrefixEnv scenarioPrefixStore
      (by decide) (by decide)).1.trans (by decide)⟩

/-- C9. Path Injector is fatal on a remote error: when the store answers the first
requests with pages that carry a non-empty token and the next request with an error,
the run ends in the fatal outcome at that request: it is the last request sent, and
the environment holds the injections of the pages before it and nothing of whatever
the store would have answered afterwards. -/
theorem path_injector_fatal_on_error (env : Environment)
    (pages : List GetParametersByPathOutput) (e : Str)
    (rest : List (Answer GetParametersByPathOutput))
    (hpath : Getenv env ENV_INJECTOR_PATH ≠ [])
    (hmid : ∀ page ∈ pages, page.NextToken ≠ none ∧ StringValue page.NextToken ≠ []) :
    injectEnvironByPath env (pages.map Except.ok ++ Except.error e :: rest) =
        { env := (allParameters pages).foldl (injectParam (Getenv env ENV_INJECTOR_PATH)) env,
          requests := (none :: pages.map (fun page => page.NextToken)).map
            (pathRequest (Getenv env ENV_INJECTOR_PATH)),
          status := .fatal } ∧
      (injectEnvironByPath env
        (pages.map Except.ok ++ Except.error e :: rest)).requests.length = pages.length + 1 := by
  have h : injectEnvironByPath env (pages.map Except.ok ++ Except.error e :: rest) =
      { env := (allParameters pages).foldl (injectParam (Getenv env ENV_INJECTOR_PATH)) env,
        requests := (none :: pages.map (fun page => page.NextToken)).map
          (pathRequest (Getenv env ENV_INJECTOR_PATH)),
        status := .fatal } := by
    simp only [injectEnvironByPath, injectEnvironByPathWith, hpath, if_false]
    exact pathLoop_failed Rel _ pages e rest env hmid
  refine ⟨h, ?_⟩
  rw [h]
  simp

/-- The path scenario with an error as the second answer: the run is fatal after two
requests, `DB_HOST` of the first page is injected and `DB_PORT` of the page that
would have followed is not. -/
theorem path_injector_fatal_on_error_witness :
    Getenv scenarioPathEnv ENV_INJECTOR_PATH ≠ [] ∧
      (∀ page ∈ [scenarioPage1], page.NextToken ≠ none ∧ StringValue page.NextToken ≠ []) ∧
      (injectEnvironByPath scenarioPathEnv
          ([scenarioPage1].map Except.ok ++
            Except.error "throttled".toList :: [Except.ok scenarioPage2]) =
        { env := (allParameters [scenarioPage1]).foldl
            (injectParam (Getenv scenarioPathEnv ENV_INJECTOR_PATH)) scenarioPathEnv,
          requests := (none :: [scenarioPage1].map (fun page => page.NextToken)).map
            (pathRequest (Getenv scenarioPathEnv ENV_INJECTOR_PATH)),
          status := .fatal } ∧
        (injectEnvironByPath scenarioPathEnv
          ([scenarioPage1].map Except.ok ++
            Except.error "throttled".toList :: [Except.ok scenarioPage2])).requests.length =
          [scenarioPage1].length + 1) :=
  ⟨by decide, by decide,
    path_injector_fatal_on_error scenarioPathEnv [scenarioPage1] "throttled".toList
      [Except.ok scenarioPage2] (by decide) (by decide)⟩

/-- C10, as stated, fails: the first parameter with key `A` and a non-empty value has
the value made of one NUL byte, which os.Setenv refuses; `A` ends up with the value
`x` of the parameter after it. -/
theorem first_value_wins_counterexample :
    Getenv pathOnlyEnv "A".toList = [] ∧
      ((allParameters [nulValuePage]).find? (fun param =>
          decide (Rel (Getenv pathOnlyEnv ENV_INJECTOR_PATH) (StringValue param.Name) =
            .ok "A".toList) && decide (StringValue param.Value ≠ []))).map
        (fun param => StringValue param.Value) = some [NUL] ∧
      Getenv (injectEnvironByPath pathOnlyEnv [.ok nulValuePage]).env "A".toList =
        "x".toList ∧
      "x".toList ≠ [NUL] := by
  decide

/-- C10, amended. Stated for every relativization function `rel` in the place of
filepath.Rel, so whatever the Go release. For pages `pages ++ [last]` returned in a
run (all but the last with a non-empty token) and a key `K` that is unset or empty
beforehand, the final value of `K` is the value of the first parameter, in page order
and then in-page order, whose relative key is `K`, whose value is non-empty, and
whose key and value os.Setenv accepts (key non-empty without `=` and NUL, value
without NUL); it is the empty string when there is no such parameter; and the
binding of `K` is unchanged when no returned parameter has key `K`. -/
theorem first_settable_value_wins (rel : Relativize) (env : Environment)
    (pages : List GetParametersByPathOutput) (last : GetParametersByPathOutput)
    (rest : List (Answer GetParametersByPathOutput)) (K : Str)
    (hpath : Getenv env ENV_INJECTOR_PATH ≠ [])
    (hmid : ∀ page ∈ pages, page.NextToken ≠ none ∧ StringValue page.NextToken ≠ [])
    (hlast : last.NextToken = none ∨ StringValue last.NextToken = [])
    (h0 : Getenv env K = []) :
    Getenv (injectEnvironByPathWith rel env
        ((pages ++ [last]).map Except.ok ++ rest)).env K =
        (match (allParameters (pages ++ [last])).find? (fun param =>
            decide (rel (Getenv env ENV_INJECTOR_PATH) (StringValue param.Name) = .ok K) &&
              (decide (StringValue param.Value ≠ []) &&
                (validKey K && validValue (StringValue param.Value)))) with
          | some param => StringValue param.Value
          | none => []) ∧
      ((∀ param ∈ allParameters (pages ++ [last]),
          rel (Getenv env ENV_INJECTOR_PATH) (StringValue param.Name) ≠ .ok K) →
        lookupEnv K (injectEnvironByPathWith rel env
          ((pages ++ [last]).map Except.ok ++ rest)).env = lookupEnv K env) := by
  simp only [injectEnvironByPathWith, hpath, if_false]
  rw [pathLoop_paged rel _ pages last rest env hmid hlast]
  exact ⟨foldl_injectParam_first rel _ _ env h0,
    fun h => foldl_injectParam_untouched rel _ _ env h⟩

/-- The path scenario: `DB_HOST` is unset beforehand and ends up as `host1`. -/
theorem first_settable_value_wins_witness :
    Getenv scenarioPathEnv ENV_INJECTOR_PATH ≠ [] ∧
      Getenv scenarioPathEnv "DB_HOST".toList = [] ∧
      Getenv (injectEnvironByPath scenarioPathEnv
        (([scenarioPage1] ++ [scenarioPage2]).map Except.ok ++ [])).env "DB_HOST".toList =
        "host1".toList :=
  ⟨by decide, by decide,
    (first_settable_value_wins Rel scenarioPathEnv [scenarioPage1] scenarioPage2 []
      "DB_HOST".toList (by decide) (by decide) (by decide) (by decide)).1.trans
      (by decide)⟩

end EnvInjector
